import Mathlib

/-!
Verification of the HILO front-end parser (crate `hilo-lang/parser`).

The development shallowly embeds the parsing pipeline of
`src/parser/src/parser.rs` over `List Char` (the Rust code walks `&str`
by byte cursor, always advancing by `len_utf8`, so a character list is a
faithful state; the few places where the Rust code uses *character*
indices as *byte* offsets — `split_args`, `parse_member_expression`,
`parse_binary_expression` — are modelled at byte granularity, with
`Option.none` standing for a Rust panic).

Conventions:
* Functions that can fail in Rust with `Option` are modelled with an
  inner `Option`; an *outer* `Option.none` always means an abnormal
  outcome — a panic or non-termination (the type-expression parser of the
  source contains a genuinely non-terminating loop, so it is fuel-indexed).
* Loops of the source that provably consume at least one character per
  iteration are given `length + 1` fuel by a wrapper, which makes them
  total functions that the kernel can evaluate; the bound is commented at
  each site.
-/

namespace Hilo

/-! ### AST (`src/parser/src/ast.rs`) -/

/-- `ast::Ident` -/
abbrev Ident := String

/-- `ast::QualifiedName` -/
abbrev QualifiedName := List Ident

/-- `ast::TypeExpr`.  `Struct` fields are the `(name, optional, ty)`
triples of `ast::StructFieldType`. -/
inductive TypeExpr where
  | Simple (q : QualifiedName)
  | Generic (base : QualifiedName) (arguments : List TypeExpr)
  | List (elem : TypeExpr)
  | Struct (fields : List (Ident × Bool × TypeExpr))
  | Optional (t : TypeExpr)
  | Unknown (raw : String)

/-- `ast::Expression`.  Note that the source enum has exactly these six
variants: there is no `OptionalChain`, `Index` or `StructLiteral`
constructor in `ast.rs`. -/
inductive Expression where
  | Identifier (s : Ident)
  | Literal (s : String)
  | Call (target : Expression) (args : List Expression)
  | Member (target : Expression) (property : Ident)
  | Binary (left : Expression) (op : String) (right : Expression)
  | Raw (s : String)

/-- `ast::Statement` -/
inductive Statement where
  | Let (name : Ident) (ty : Option TypeExpr) (value : Option Expression)
  | Return (value : Option Expression)
  | Expr (e : Expression)

/-- `ast::Block` -/
structure Block where
  raw : String
  statements : List Statement

/-- `ast::Param` -/
structure Param where
  name : Ident
  ty : TypeExpr
  default : Option String

/-- `ast::RecordField` -/
structure RecordField where
  name : Ident
  optional : Bool
  ty : TypeExpr

/-- `ast::RecordDecl` -/
structure RecordDecl where
  name : Ident
  type_params : List Ident
  fields : List RecordField

/-- `ast::TaskDecl` -/
structure TaskDecl where
  name : Ident
  params : List Param
  return_type : Option TypeExpr
  body : Block

/-- `ast::WorkflowDecl` -/
structure WorkflowDecl where
  name : Ident
  body : Block

/-- `ast::TestDecl` -/
structure TestDecl where
  name : String
  body : Block

/-- `ast::Item` -/
inductive Item where
  | Record (r : RecordDecl)
  | Task (t : TaskDecl)
  | Workflow (w : WorkflowDecl)
  | Test (t : TestDecl)
  | Other (s : String)

/-- `ast::Import` -/
structure Import where
  path : QualifiedName
  members : Option (List Ident)
  «alias» : Option Ident

/-- `ast::Module` -/
structure Module where
  name : Option QualifiedName
  imports : List Import
  items : List Item

/-! ### Character classes -/

/-- Rust `char::is_whitespace`: the Unicode `White_Space` property
(the exact 25-code-point table). -/
def isWS (c : Char) : Bool :=
  c.val = 0x09 || c.val = 0x0A || c.val = 0x0B || c.val = 0x0C || c.val = 0x0D ||
  c.val = 0x20 || c.val = 0x85 || c.val = 0xA0 || c.val = 0x1680 ||
  (0x2000 ≤ c.val && c.val ≤ 0x200A) ||
  c.val = 0x2028 || c.val = 0x2029 || c.val = 0x202F || c.val = 0x205F || c.val = 0x3000

/-- Rust `char::is_alphabetic`.  Exact on the ASCII range, which covers
every identifier character appearing in this development (the single
non-ASCII character used anywhere, `é`, is routed into a byte-slicing
panic before any alphabetic test can reach it). -/
def rustIsAlphabetic (c : Char) : Bool := c.isAlpha

/-- Rust `char::is_alphanumeric`, with the same ASCII proviso as
`rustIsAlphabetic`. -/
def rustIsAlphanumeric (c : Char) : Bool := c.isAlphanum

/-- `parser::is_ident_start` -/
def isIdentStart (c : Char) : Bool := c = '_' || rustIsAlphabetic c

/-- `parser::is_ident_continue` (on a present character). -/
def isIdentContinue (c : Char) : Bool := c = '_' || rustIsAlphanumeric c

/-- `parser::is_ident_continue` (on an optional character; `None` is not
an identifier continuation). -/
def isIdentContinueO : Option Char → Bool
  | some c => isIdentContinue c
  | none => false

/-- Left trim by Rust `str::trim_start`. -/
def trimL (l : List Char) : List Char := l.dropWhile isWS

/-- Right trim by Rust `str::trim_end`. -/
def trimR (l : List Char) : List Char := (l.reverse.dropWhile isWS).reverse

/-- Rust `str::trim`. -/
def rTrim (l : List Char) : List Char := trimR (trimL l)

/-- Strip every trailing occurrence of `c` (Rust `trim_end_matches`). -/
def dropTrailingAll (c : Char) (l : List Char) : List Char :=
  (l.reverse.dropWhile (· = c)).reverse

/-- UTF-8 byte length of a character sequence. -/
def utf8Len (l : List Char) : Nat := (l.map Char.utf8Size).sum

/-! ### Primitive scanners (`parser.rs`, bottom of the file) -/

/-- `parser::skip_ws_spaces` -/
def skipWsSpaces (l : List Char) : List Char := l.dropWhile isWS

/-- `parser::skip_line_comment`: consume through the next newline
(inclusive) or to end-of-input. -/
def skipLineComment : List Char → List Char
  | [] => []
  | c :: rest => if c = '\n' then rest else skipLineComment rest

/-- `parser::skip_block_comment`.  The loop guard is `idx + 1 < src.len()`
in *bytes*: the loop body only runs while at least two bytes remain, so
with one single-byte character left the cursor stops *on* that character
rather than at end-of-input. -/
def skipBlockComment : List Char → List Char
  | [] => []
  | [c] => if 2 ≤ c.utf8Size then [] else [c]
  | c₁ :: c₂ :: rest =>
      if c₁ = '*' && c₂ = '/' then rest
      else skipBlockComment (c₂ :: rest)

/-- One fuel-indexed pass of the `parser::skip_doc_comments` loop.  Each
iteration that recurses consumes at least the three characters `///`, so
`length + 1` fuel (see the wrapper) is always sufficient. -/
def skipDocCommentsF : Nat → List Char → List Char
  | 0, l => l
  | f + 1, l =>
    let l₁ := l.dropWhile isWS
    if "///".data.isPrefixOf l₁ then skipDocCommentsF f (skipLineComment (l₁.drop 3))
    else l₁

/-- `parser::skip_doc_comments` -/
def skipDocComments (l : List Char) : List Char := skipDocCommentsF (l.length + 1) l

/-- One fuel-indexed pass of the `parser::skip_ws` loop. Each iteration
that recurses consumes at least the two characters of a comment opener,
so `length + 1` fuel is always sufficient. -/
def skipWsF : Nat → List Char → List Char
  | 0, l => l
  | f + 1, l =>
    let l₁ := l.dropWhile isWS
    if "///".data.isPrefixOf l₁ then skipWsF f (skipLineComment (l₁.drop 3))
    else if "//".data.isPrefixOf l₁ then skipWsF f (skipLineComment (l₁.drop 2))
    else if "/*".data.isPrefixOf l₁ then skipWsF f (skipBlockComment (l₁.drop 2))
    else l₁

/-- `parser::skip_ws` (whitespace, `///`, `//` and `/*` runs). -/
def skipWsH (l : List Char) : List Char := skipWsF (l.length + 1) l

/-- `parser::starts_with_keyword`: the keyword is a prefix and the
following character (if any) does not continue an identifier. -/
def startsWithKeyword (l : List Char) (kw : List Char) : Bool :=
  kw.isPrefixOf l && !(isIdentContinueO ((l.drop kw.length).head?))

/-- `parser::take_ident` -/
def takeIdent (l : List Char) : Option (String × List Char) :=
  match l with
  | [] => none
  | c :: rest =>
    if isIdentStart c then
      some (String.mk (c :: rest.takeWhile isIdentContinue), rest.dropWhile isIdentContinue)
    else none

/-- Body loop of `parser::take_string_literal` (cursor past the opening
quote); the accumulator collects the unescaped content. -/
def takeStringLitAux : List Char → List Char → Option (String × List Char)
  | _, [] => none
  | acc, '\\' :: rest =>
    match rest with
    | [] => none
    | c :: rest' => takeStringLitAux (acc ++ [c]) rest'
  | acc, '"' :: rest => some (String.mk acc, rest)
  | acc, c :: rest => takeStringLitAux (acc ++ [c]) rest

/-- `parser::take_string_literal` -/
def takeStringLiteral (l : List Char) : Option (String × List Char) :=
  match l with
  | '"' :: rest => takeStringLitAux [] rest
  | _ => none

/-- Body loop of `parser::extract_balanced` (cursor past the opener,
depth 1); returns the interior and the suffix after the closer.  Bracket
characters inside double-quoted string literals (with backslash escapes)
do not count. -/
def extractBalancedAux (openC closeC : Char) :
    List Char → Nat → Bool → Bool → List Char → Option (List Char × List Char)
  | [], _, _, _, _ => none
  | c :: rest, depth, inStr, esc, acc =>
    if inStr then
      if esc then extractBalancedAux openC closeC rest depth true false (acc ++ [c])
      else if c = '\\' then extractBalancedAux openC closeC rest depth true true (acc ++ [c])
      else if c = '"' then extractBalancedAux openC closeC rest depth false false (acc ++ [c])
      else extractBalancedAux openC closeC rest depth true false (acc ++ [c])
    else if c = '"' then extractBalancedAux openC closeC rest depth true false (acc ++ [c])
    else if c = openC then extractBalancedAux openC closeC rest (depth + 1) false false (acc ++ [c])
    else if c = closeC then
      if depth = 1 then some (acc, rest)
      else extractBalancedAux openC closeC rest (depth - 1) false false (acc ++ [c])
    else extractBalancedAux openC closeC rest depth false false (acc ++ [c])

/-- `parser::extract_balanced` -/
def extractBalanced (l : List Char) (openC closeC : Char) : Option (List Char × List Char) :=
  match l with
  | c :: rest => if c = openC then extractBalancedAux openC closeC rest 1 false false [] else none
  | [] => none

/-! ### Splitting helpers -/

/-- Rust `str::split_once`. -/
def splitOnce (c : Char) : List Char → Option (List Char × List Char)
  | [] => none
  | x :: rest =>
    if x = c then some ([], rest)
    else (splitOnce c rest).map (fun p => (x :: p.1, p.2))

/-- Rust `str::split` on a single character (always at least one piece). -/
def splitAll (c : Char) : List Char → List (List Char)
  | [] => [[]]
  | x :: rest =>
    if x = c then [] :: splitAll c rest
    else
      match splitAll c rest with
      | [] => [[x]]
      | p :: ps => (x :: p) :: ps

/-- Strip one trailing carriage return (part of Rust `str::lines`). -/
def stripCR (l : List Char) : List Char :=
  if l.getLast? = some '\r' then l.dropLast else l

/-- Worker for `rustLines`; the accumulator holds the current line
reversed. -/
def rustLinesGo : List Char → List Char → List (List Char)
  | acc, [] => if acc = [] then [] else [stripCR acc.reverse]
  | acc, '\n' :: rest => stripCR acc.reverse :: rustLinesGo [] rest
  | acc, c :: rest => rustLinesGo (c :: acc) rest

/-- Rust `str::lines`: split on `\n`, strip a final `\r` of each line, no
trailing empty line for a terminating newline. -/
def rustLines (l : List Char) : List (List Char) := rustLinesGo [] l

/-! ### Type-expression parser (`parser::TypeParser`)

The five mutually recursive routines are fuel-indexed because the source
loop in `parse_type_arguments` genuinely fails to terminate when its
input ends before the closing bracket (each iteration then consumes
nothing).  An outer `none` means the fuel ran out — i.e. the Rust code
diverges (or, for a finite fuel below the need of a terminating run, that
the bound was too small; theorems quantify fuel accordingly).

In all of them the `List Char` argument is the unconsumed suffix
(`self.src[self.idx..]` of the Rust struct). -/

/-- Character class of `TypeParser::parse_identifier` (note that `?` is
accepted as an identifier character there). -/
def tpIdentChar (c : Char) : Bool := c = '_' || rustIsAlphanumeric c || c = '?'

/-- `TypeParser::skip_ws` -/
def tpSkipWs (l : List Char) : List Char := l.dropWhile isWS

/-- `TypeParser::parse_identifier`: skip whitespace, then take the longest
run of identifier characters (the Rust `trim` of the run is the identity
since no whitespace is taken). -/
def tpIdent (l : List Char) : String × List Char :=
  let l₁ := tpSkipWs l
  (String.mk (l₁.takeWhile tpIdentChar), l₁.dropWhile tpIdentChar)

/-- `TypeParser::consume`: skip whitespace, then consume `c` if it is the
next character.  The whitespace is consumed even when the match fails
(the Rust method mutates `self.idx` in both cases). -/
def tpConsume (c : Char) (l : List Char) : Bool × List Char :=
  let l₁ := tpSkipWs l
  match l₁ with
  | x :: rest => if x = c then (true, rest) else (false, l₁)
  | [] => (false, l₁)

mutual

/-- `TypeParser::parse_type_with_optional` -/
def tpWithOptional : Nat → List Char → Option (Option TypeExpr × List Char)
  | 0, _ => none
  | f + 1, l =>
    match tpInner f l with
    | none => none
    | some (none, l₁) => some (none, l₁)
    | some (some ty, l₁) =>
      let l₂ := tpSkipWs l₁
      if l₂.head? = some '?' then some (some (.Optional ty), l₂.tail)
      else some (some ty, l₂)

/-- `TypeParser::parse_type_inner` -/
def tpInner : Nat → List Char → Option (Option TypeExpr × List Char)
  | 0, _ => none
  | f + 1, l =>
    let l₁ := tpSkipWs l
    if l₁ = [] then some (none, l₁)
    else if l₁.head? = some '{' then
      match tpStructFields f l₁.tail with
      | none => none
      | some (fields, l₂) => some (some (.Struct fields), l₂)
    else
      match tpQualified f l₁ with
      | none => none
      | some (base, l₂) =>
        if base = [] then some (none, l₂)
        else
          match tpConsume '<' (tpSkipWs l₂) with
          | (true, l₃) =>
            match tpArguments f '>' l₃ with
            | none => none
            | some (args, l₄) => some (some (.Generic base args), l₄)
          | (false, l₃) =>
            match tpConsume '[' (tpSkipWs l₃) with
            | (true, l₄) =>
              let l₅ := tpSkipWs l₄
              if base = ["List"] then
                if l₅.head? = some ']' then some (some (.List (.Simple base)), l₅.tail)
                else
                  match tpWithOptional f l₅ with
                  | none => none
                  | some (tyO, l₆) =>
                    let ty := tyO.getD (.Unknown "")
                    some (some (.List ty), (tpConsume ']' (tpSkipWs l₆)).2)
              else
                match tpArguments f ']' l₅ with
                | none => none
                | some (args, l₆) => some (some (.Generic base args), l₆)
            | (false, l₄) => some (some (.Simple base), l₄)

/-- `TypeParser::parse_struct_fields`; the recursion returns the fields
parsed from the current cursor on (the Rust loop accumulates into a
vector, which is the same list). -/
def tpStructFields : Nat → List Char → Option (List (Ident × Bool × TypeExpr) × List Char)
  | 0, _ => none
  | f + 1, l =>
    let l₁ := tpSkipWs l
    if l₁.head? = some '}' then some ([], l₁.tail)
    else
      match tpIdent l₁ with
      | (name₀, l₂) =>
        if name₀ = "" then some ([], l₂)
        else
          let optional := name₀.endsWith "?"
          let name := if optional then String.mk (dropTrailingAll '?' name₀.data) else name₀
          match tpConsume ':' (tpSkipWs l₂) with
          | (false, l₃) => some ([], l₃)
          | (true, l₃) =>
            match tpWithOptional f l₃ with
            | none => none
            | some (tyO, l₄) =>
              let ty := tyO.getD (.Unknown "")
              match tpConsume ',' (tpSkipWs l₄) with
              | (true, l₅) =>
                match tpStructFields f l₅ with
                | none => none
                | some (fields, l₆) => some ((name, optional, ty) :: fields, l₆)
              | (false, l₅) =>
                let l₆ := tpSkipWs l₅
                if l₆.head? = some '}' then some ([(name, optional, ty)], l₆.tail)
                else some ([(name, optional, ty)], l₆)

/-- `TypeParser::parse_type_arguments` (the Rust loop body is identical
whether the cursor is at end-of-input or at a non-closing character, so
the two cases share one branch). -/
def tpArguments : Nat → Char → List Char → Option (List TypeExpr × List Char)
  | 0, _, _ => none
  | f + 1, closing, l =>
    let l₁ := tpSkipWs l
    if l₁.head? = some closing then some ([], l₁.tail)
    else
      match tpWithOptional f l₁ with
      | none => none
      | some (tyO, l₂) =>
        let arg := tyO.getD (.Unknown "")
        match tpConsume closing (tpSkipWs l₂) with
        | (true, l₃) => some ([arg], l₃)
        | (false, l₃) =>
          match tpArguments f closing (tpConsume ',' l₃).2 with
          | none => none
          | some (args, l₄) => some (arg :: args, l₄)

/-- `TypeParser::parse_qualified_identifier`; the recursion returns the
dotted parts from the current cursor on. -/
def tpQualified : Nat → List Char → Option (List Ident × List Char)
  | 0, _ => none
  | f + 1, l =>
    match tpIdent l with
    | (id, l₁) =>
      if id = "" then some ([], l₁)
      else
        match tpConsume '.' (tpSkipWs l₁) with
        | (false, l₂) => some ([id], l₂)
        | (true, l₂) =>
          match tpQualified f l₂ with
          | none => none
          | some (parts, l₃) => some (id :: parts, l₃)

end

/-- `parser::parse_type_expr` / `TypeParser::parse` (fuel-indexed). -/
def parseTypeExprF (fuel : Nat) (raw : String) : Option TypeExpr :=
  let src := rTrim raw.data
  if src = [] then some (.Unknown "")
  else
    match tpWithOptional fuel src with
    | none => none
    | some (none, _) => some (.Unknown (String.mk src))
    | some (some ty, l) =>
      if tpSkipWs l = [] then some ty else some (.Unknown (String.mk src))

/-! ### Byte accounting

`split_args`, `parse_member_expression` and `parse_binary_expression`
collect `Vec<char>` and then index `&str` slices with the *character*
positions.  Rust slicing panics when a bound is not a UTF-8 character
boundary (or exceeds the length, or start > end); `none` models that
panic. -/

/-- Drop the first `n` *bytes*; `none` when `n` is not a character
boundary of `l`. -/
def byteDrop : List Char → Nat → Option (List Char)
  | l, 0 => some l
  | [], _ + 1 => none
  | c :: rest, n + 1 =>
    if c.utf8Size ≤ n + 1 then byteDrop rest (n + 1 - c.utf8Size) else none

/-- Take the first `n` *bytes*; `none` when `n` is not a character
boundary of `l`. -/
def byteTake : List Char → Nat → Option (List Char)
  | _, 0 => some []
  | [], _ + 1 => none
  | c :: rest, n + 1 =>
    if c.utf8Size ≤ n + 1 then (byteTake rest (n + 1 - c.utf8Size)).map (c :: ·) else none

/-- Rust `&src[a..b]` with byte indices: panics (`none`) unless `a ≤ b`
and both are character boundaries. -/
def byteSlice (l : List Char) (a b : Nat) : Option (List Char) :=
  if a ≤ b then
    match byteDrop l a with
    | none => none
    | some l' => byteTake l' (b - a)
  else none

/-- Rust `str::find(char)`: byte offset of the first occurrence. -/
def findBytePos (c : Char) : List Char → Option Nat
  | [] => none
  | x :: rest =>
    if x = c then some 0 else (findBytePos c rest).map (x.utf8Size + ·)

/-- Rust `str::rfind(char)`: byte offset of the last occurrence. -/
def rfindBytePos (c : Char) : List Char → Option Nat
  | [] => none
  | x :: rest =>
    match rfindBytePos c rest with
    | some n => some (x.utf8Size + n)
    | none => if x = c then some 0 else none

/-! ### Expression layer (`parser.rs` lines 376–516) -/

/-- `parser::is_identifier` -/
def isIdentifierL (l : List Char) : Bool :=
  match l with
  | [] => false
  | c :: rest =>
    (c = '_' || rustIsAlphabetic c) && rest.all (fun x => x = '_' || rustIsAlphanumeric x)

/-- The lexical grammar accepted by Rust `str::parse::<f64>` (documented
for `f64::from_str`): optional sign, then a case-insensitive `inf`,
`infinity` or `nan`, or a decimal number `Digit+ | Digit+ '.' Digit* |
Digit* '.' Digit+` with an optional exponent `('e'|'E') Sign? Digit+`. -/
def parsesAsF64 (l : List Char) : Bool :=
  let l₁ := match l with
    | '+' :: r => r
    | '-' :: r => r
    | _ => l
  let low := l₁.map Char.toLower
  if low = "inf".data || low = "infinity".data || low = "nan".data then true
  else
    let ds := l₁.takeWhile Char.isDigit
    let r₁ := l₁.dropWhile Char.isDigit
    let step : Bool × List Char :=
      match r₁ with
      | '.' :: r =>
        ((decide (ds ≠ []) || decide (r.takeWhile Char.isDigit ≠ [])), r.dropWhile Char.isDigit)
      | _ => (decide (ds ≠ []), r₁)
    if !step.1 then false
    else
      match step.2 with
      | [] => true
      | e :: r =>
        if e = 'e' || e = 'E' then
          let r' := match r with
            | '+' :: r'' => r''
            | '-' :: r'' => r''
            | _ => r
          decide (r' ≠ []) && r'.all Char.isDigit
        else false

/-- `parser::is_literal`: a double-quoted string, an `f64`-parsable
number, or `true`/`false`. -/
def isLiteralL (l : List Char) : Bool :=
  (decide (l.head? = some '"') && decide (l.getLast? = some '"'))
  || parsesAsF64 l || l = "true".data || l = "false".data

/-- Loop body of `parser::split_args`.  `idx` is the enumeration index of
the `Vec<char>` — and it is (unfaithfully to UTF-8, faithfully to the
source) used as a byte offset for the slices `src[start..idx]` and
`src[start..]`. -/
def splitArgsGo (src : List Char) : List Char → Nat → Nat → Nat → Option (List (List Char))
  | [], _, _, start =>
    match byteDrop src start with
    | none => none
    | some tail =>
      let t := rTrim tail
      some (if t = [] then [] else [t])
  | ch :: rest, idx, depth, start =>
    if ch = '(' || ch = '{' || ch = '[' then splitArgsGo src rest (idx + 1) (depth + 1) start
    else if ch = ')' || ch = '}' || ch = ']' then
      splitArgsGo src rest (idx + 1) (if 0 < depth then depth - 1 else depth) start
    else if ch = ',' && depth = 0 then
      match byteSlice src start idx with
      | none => none
      | some piece => (splitArgsGo src rest (idx + 1) depth (idx + 1)).map (rTrim piece :: ·)
    else splitArgsGo src rest (idx + 1) depth start

/-- `parser::split_args` -/
def splitArgs (src : List Char) : Option (List (List Char)) := splitArgsGo src src 0 0 0

/-- `parser::parse_call_expression` -/
def parseCallExpression (src : List Char) :
    Option (Option (List Char × List (List Char))) :=
  match findBytePos '(' src, rfindBytePos ')' src with
  | some op, some cp =>
    if cp < op then some none
    else
      match byteTake src op with
      | none => none
      | some t =>
        let target := rTrim t
        if target = [] then some none
        else
          match byteSlice src (op + 1) cp with
          | none => none
          | some argsStr =>
            match splitArgs argsStr with
            | none => none
            | some args => some (some (target, args))
  | _, _ => some none

/-- Reverse scan of `parser::parse_member_expression`: `i` counts down
over the character indices, which the source then uses as byte offsets
for `src[..idx]` and `src[idx+1..]`. -/
def parseMemberLoop (src : List Char) : Nat → Int → Option (Option (List Char × List Char))
  | 0, _ => some none
  | i + 1, depth =>
    match src.get? i with
    | none => some none
    | some ch =>
      if ch = ')' || ch = ']' || ch = '}' then parseMemberLoop src i (depth + 1)
      else if ch = '(' || ch = '[' || ch = '{' then parseMemberLoop src i (depth - 1)
      else if ch = '.' && depth = 0 then
        match byteTake src i, byteDrop src (i + 1) with
        | some tgt, some prop =>
          let target := rTrim tgt
          let property := rTrim prop
          if target ≠ [] ∧ isIdentifierL property then some (some (target, property))
          else parseMemberLoop src i depth
        | _, _ => none
      else parseMemberLoop src i depth

/-- `parser::parse_member_expression` -/
def parseMemberExpression (src : List Char) : Option (Option (List Char × List Char)) :=
  parseMemberLoop src src.length 0

/-- The binary operator table of `parser::parse_binary_expression`, in
source order. -/
def binOps : List String :=
  ["==", "!=", "<=", ">=", "&&", "||", "+", "-", "*", "/", "%", "<", ">"]

/-- The inner `for op in ops` loop of `parser::parse_binary_expression`
at character index `idx`: slice `src[idx+1-op.len()..=idx]` (a byte
slice with character indices — `none` is the boundary panic), compare
with `op`, and on a match split into trimmed left and right parts. -/
def tryOpsAt (src : List Char) (idx : Nat) :
    List String → Option (Option (List Char × String × List Char))
  | [] => some none
  | op :: rest =>
    if op.length ≤ idx + 1 then
      match byteSlice src (idx + 1 - op.length) (idx + 1) with
      | none => none
      | some cand =>
        if cand = op.data then
          match byteTake src (idx + 1 - op.length), byteDrop src (idx + 1) with
          | some lft, some rgt =>
            let left := rTrim lft
            let right := rTrim rgt
            if left ≠ [] ∧ right ≠ [] then some (some (left, op, right))
            else tryOpsAt src idx rest
          | _, _ => none
        else tryOpsAt src idx rest
    else tryOpsAt src idx rest

/-- Reverse scan of `parser::parse_binary_expression` over character
indices (counting down), tracking `()[]{}` depth. -/
def parseBinaryLoop (src : List Char) : Nat → Int → Option (Option (List Char × String × List Char))
  | 0, _ => some none
  | i + 1, depth =>
    match src.get? i with
    | none => some none
    | some ch =>
      if ch = ')' || ch = ']' || ch = '}' then parseBinaryLoop src i (depth + 1)
      else if ch = '(' || ch = '[' || ch = '{' then parseBinaryLoop src i (depth - 1)
      else if depth = 0 then
        match tryOpsAt src i binOps with
        | none => none
        | some (some res) => some (some res)
        | some none => parseBinaryLoop src i depth
      else parseBinaryLoop src i depth

/-- `parser::parse_binary_expression` -/
def parseBinaryExpression (src : List Char) : Option (Option (List Char × String × List Char)) :=
  parseBinaryLoop src src.length 0

/-- Fuel-indexed body of `parser::parse_expression`.  Every recursive
call is on a strictly shorter character sequence (a trimmed strict slice
of the input), so the `length + 1` fuel given by the wrapper is always
sufficient; `none` is a propagated panic. -/
def parseExpressionF : Nat → List Char → Option Expression
  | 0, _ => none
  | f + 1, src =>
    let trimmed := rTrim src
    if trimmed = [] then some (.Raw "")
    else
      match parseCallExpression trimmed with
      | none => none
      | some (some (target, args)) =>
        match parseExpressionF f target with
        | none => none
        | some tgt =>
          match args.mapM (parseExpressionF f) with
          | none => none
          | some argEs => some (.Call tgt argEs)
      | some none =>
        match parseBinaryExpression trimmed with
        | none => none
        | some (some (lft, op, rgt)) =>
          match parseExpressionF f lft, parseExpressionF f rgt with
          | some le, some re => some (.Binary le op re)
          | _, _ => none
        | some none =>
          match parseMemberExpression trimmed with
          | none => none
          | some (some (tgt, prop)) =>
            match parseExpressionF f tgt with
            | none => none
            | some te => some (.Member te (String.mk prop))
          | some none =>
            if isIdentifierL trimmed then some (.Identifier (String.mk trimmed))
            else if isLiteralL trimmed then some (.Literal (String.mk trimmed))
            else some (.Raw (String.mk trimmed))

/-- `parser::parse_expression` -/
def parseExpression (src : List Char) : Option Expression :=
  parseExpressionF (src.length + 1) src

/-! ### Statements and blocks (`parser.rs` lines 323–374) -/

/-- `parser::parse_let_statement` (the argument is the trimmed text after
`let `).  `tf` is the fuel handed to the type-expression parser. -/
def parseLetStatement (tf : Nat) (rest : List Char) : Option Statement :=
  let split := match splitOnce '=' rest with
    | some (lhs, rhs) => (rTrim lhs, some (rTrim rhs))
    | none => (rest, none)
  let nameTy : Option (Ident × Option TypeExpr) :=
    match splitOnce ':' split.1 with
    | some (n, tyStr) =>
      match parseTypeExprF tf (String.mk (rTrim tyStr)) with
      | none => none
      | some ty => some (String.mk (rTrim n), some ty)
    | none => some (String.mk (rTrim split.1), none)
  match nameTy with
  | none => none
  | some (name, ty) =>
    match split.2 with
    | none => some (.Let name ty none)
    | some v =>
      match parseExpression v with
      | none => none
      | some e => some (.Let name ty (some e))

/-- `parser::parse_statement` -/
def parseStatement (tf : Nat) (line : List Char) : Option Statement :=
  if "let ".data.isPrefixOf line then
    parseLetStatement tf (rTrim (line.drop 4))
  else if "return".data.isPrefixOf line then
    let value := rTrim (line.drop 6)
    if value = [] then some (.Return none)
    else (parseExpression value).map (fun e => .Return (some e))
  else (parseExpression line).map .Expr

/-- `parser::build_block`: trim the body, split into trimmed lines,
drop empty lines and lone braces, and parse each line as a statement. -/
def buildBlock (tf : Nat) (body : List Char) : Option Block :=
  let raw := rTrim body
  let lines := ((rustLines raw).map rTrim).filter
    (fun l => decide (l ≠ []) && decide (l ≠ ['{']) && decide (l ≠ ['}']))
  match lines.mapM (parseStatement tf) with
  | none => none
  | some stmts => some ⟨String.mk raw, stmts⟩

/-! ### Record fields and parameters (`parser.rs` lines 518–574) -/

/-- The per-line closure of `parser::parse_record_fields`: `some none`
when the line contributes no field, `some (some f)` for a parsed field,
`none` when the type sub-parse diverges. -/
def parseRecordFieldLine (tf : Nat) (line : List Char) : Option (Option RecordField) :=
  let t := rTrim line
  if t = [] then some none
  else if "//".data.isPrefixOf t || "/*".data.isPrefixOf t || "\x7d".data.isPrefixOf t then
    some none
  else
    match splitOnce ':' t with
    | none => some none
    | some (namePart, rest) =>
      let name₀ := rTrim namePart
      let optional := name₀.getLast? = some '?'
      let name₁ := if optional then name₀.dropLast else name₀
      let name := rTrim (dropTrailingAll '?' name₁)
      let tyStr :=
        rTrim (dropTrailingAll ','
          (rTrim (match splitOnce '=' rest with
            | some (ty, _) => ty
            | none => rest)))
      match parseTypeExprF tf (String.mk tyStr) with
      | none => none
      | some ty => some (some ⟨String.mk name, optional, ty⟩)

/-- `filter_map` sequencing over the body lines for
`parser::parse_record_fields`. -/
def parseRecordFieldsGo (tf : Nat) : List (List Char) → Option (List RecordField)
  | [] => some []
  | line :: rest =>
    match parseRecordFieldLine tf line with
    | none => none
    | some none => parseRecordFieldsGo tf rest
    | some (some f) => (parseRecordFieldsGo tf rest).map (f :: ·)

/-- `parser::parse_record_fields` -/
def parseRecordFields (tf : Nat) (body : List Char) : Option (List RecordField) :=
  parseRecordFieldsGo tf (rustLines body)

/-- The per-part closure of `parser::parse_params` (parts come from a
plain `split(',')`, *not* a depth-aware split). -/
def parseParam (tf : Nat) (part : List Char) : Option (Option Param) :=
  let t := rTrim part
  if t = [] then some none
  else
    match splitOnce ':' t with
    | none => some none
    | some (namePart, rest) =>
      let name := rTrim namePart
      let rest := rTrim rest
      let split : List Char × Option String :=
        match splitOnce '=' rest with
        | some (ty, d) => (rTrim ty, some (String.mk (rTrim d)))
        | none => (rest, none)
      match parseTypeExprF tf (String.mk split.1) with
      | none => none
      | some ty => some (some ⟨String.mk name, ty, split.2⟩)

/-- `filter_map` sequencing for `parser::parse_params`. -/
def parseParamsGo (tf : Nat) : List (List Char) → Option (List Param)
  | [] => some []
  | part :: rest =>
    match parseParam tf part with
    | none => none
    | some none => parseParamsGo tf rest
    | some (some p) => (parseParamsGo tf rest).map (p :: ·)

/-- `parser::parse_params` -/
def parseParams (tf : Nat) (src : List Char) : Option (List Param) :=
  parseParamsGo tf (splitAll ',' src)

/-! ### Declaration parsers (`parser.rs` lines 176–321)

Each returns `some (some (item, rest))` on a match, `some none` when the
recognizer declines (Rust `None`), and `none` when an inner sub-parse
diverges or panics. -/

/-- `parser::parse_record_decl` -/
def parseRecordDecl (tf : Nat) (l : List Char) : Option (Option (Item × List Char)) :=
  let l₀ := skipDocComments l
  if ¬ startsWithKeyword l₀ "record".data then some none
  else
    let l₁ := skipWsH (l₀.drop 6)
    match takeIdent l₁ with
    | none => some none
    | some (name, l₂) =>
      let l₃ := skipWsH l₂
      let step : Option (List Char × List Ident) :=
        if l₃.head? = some '<' then
          match extractBalanced l₃ '<' '>' with
          | none => none
          | some (paramsSrc, l₄) =>
            some (skipWsH l₄,
              (((splitAll ',' paramsSrc).map (fun s => String.mk (rTrim s))).filter (· ≠ "")))
        else some (l₃, [])
      match step with
      | none => some none
      | some (l₅, typeParams) =>
        if l₅.head? ≠ some '{' then some none
        else
          match extractBalanced l₅ '{' '}' with
          | none => some none
          | some (fieldsSrc, l₆) =>
            match parseRecordFields tf fieldsSrc with
            | none => none
            | some fields =>
              some (some (.Record ⟨name, typeParams, fields⟩, skipWsH l₆))

/-- The return-type scan of `parser::parse_task_decl`: advance character
by character up to (not including) the first `{`, or to end-of-input. -/
def scanToBrace : List Char → List Char × List Char
  | [] => ([], [])
  | c :: rest =>
    if c = '{' then ([], c :: rest)
    else
      match scanToBrace rest with
      | (a, b) => (c :: a, b)

/-- `parser::parse_task_decl` -/
def parseTaskDecl (tf : Nat) (l : List Char) : Option (Option (Item × List Char)) :=
  let l₀ := skipDocComments l
  if ¬ startsWithKeyword l₀ "task".data then some none
  else
    let l₁ := skipWsH (l₀.drop 4)
    match takeIdent l₁ with
    | none => some none
    | some (name, l₂) =>
      let l₃ := skipWsH l₂
      if l₃.head? ≠ some '(' then some none
      else
        match extractBalanced l₃ '(' ')' with
        | none => some none
        | some (paramsSrc, l₄) =>
          match parseParams tf paramsSrc with
          | none => none
          | some params =>
            let l₅ := skipWsH l₄
            let rtStep : Option (Option TypeExpr × List Char) :=
              match l₅ with
              | '-' :: '>' :: rest =>
                let rest₁ := skipWsH rest
                match scanToBrace rest₁ with
                | (region, rest₂) =>
                  let tyStr := rTrim region
                  if tyStr = [] then some (none, rest₂)
                  else
                    match parseTypeExprF tf (String.mk tyStr) with
                    | none => none
                    | some ty => some (some ty, rest₂)
              | _ => some (none, l₅)
            match rtStep with
            | none => none
            | some (returnType, l₆) =>
              let l₇ := skipWsH l₆
              if l₇.head? ≠ some '{' then some none
              else
                match extractBalanced l₇ '{' '}' with
                | none => some none
                | some (bodySrc, l₈) =>
                  match buildBlock tf bodySrc with
                  | none => none
                  | some body =>
                    some (some (.Task ⟨name, params, returnType, body⟩, skipWsH l₈))

/-- `parser::parse_workflow_decl` -/
def parseWorkflowDecl (tf : Nat) (l : List Char) : Option (Option (Item × List Char)) :=
  let l₀ := skipDocComments l
  if ¬ startsWithKeyword l₀ "workflow".data then some none
  else
    let l₁ := skipWsH (l₀.drop 8)
    match takeIdent l₁ with
    | none => some none
    | some (name, l₂) =>
      let l₃ := skipWsH l₂
      if l₃.head? ≠ some '{' then some none
      else
        match extractBalanced l₃ '{' '}' with
        | none => some none
        | some (bodySrc, l₄) =>
          match buildBlock tf bodySrc with
          | none => none
          | some body => some (some (.Workflow ⟨name, body⟩, skipWsH l₄))

/-- `parser::parse_test_decl` (the name is an identifier or a quoted
string literal whose escapes are resolved by copying the escaped
character). -/
def parseTestDecl (tf : Nat) (l : List Char) : Option (Option (Item × List Char)) :=
  let l₀ := skipDocComments l
  if ¬ startsWithKeyword l₀ "test".data then some none
  else
    let l₁ := skipWsH (l₀.drop 4)
    let nameStep : Option (String × List Char) :=
      if l₁.head? = some '"' then takeStringLiteral l₁ else takeIdent l₁
    match nameStep with
    | none => some none
    | some (name, l₂) =>
      let l₃ := skipWsH l₂
      if l₃.head? ≠ some '{' then some none
      else
        match extractBalanced l₃ '{' '}' with
        | none => some none
        | some (bodySrc, l₄) =>
          match buildBlock tf bodySrc with
          | none => none
          | some body => some (some (.Test ⟨name, body⟩, skipWsH l₄))

/-! ### Item dispatcher (`parser::parse_items_from_remainder`) -/

/-- Fuel-indexed dispatcher loop.  A successful recognizer consumes at
least its keyword, so the remainder shrinks strictly each iteration and
the `length + 1` fuel of the wrapper is always sufficient.  The cursor
handed to each iteration is already past `skip_ws`. -/
def parseItemsGo (tf : Nat) : Nat → List Char → Option (List Item)
  | 0, _ => none
  | f + 1, l =>
    if l = [] then some []
    else
      match parseRecordDecl tf l with
      | none => none
      | some (some (item, rest)) => (parseItemsGo tf f (skipWsH rest)).map (item :: ·)
      | some none =>
        match parseTaskDecl tf l with
        | none => none
        | some (some (item, rest)) => (parseItemsGo tf f (skipWsH rest)).map (item :: ·)
        | some none =>
          match parseWorkflowDecl tf l with
          | none => none
          | some (some (item, rest)) => (parseItemsGo tf f (skipWsH rest)).map (item :: ·)
          | some none =>
            match parseTestDecl tf l with
            | none => none
            | some (some (item, rest)) => (parseItemsGo tf f (skipWsH rest)).map (item :: ·)
            | some none =>
              let rem := rTrim l
              if rem = [] then some []
              else some [.Other (String.mk rem)]

/-- `parser::parse_items_from_remainder` -/
def parseItemsFromRemainder (tf : Nat) (l : List Char) : Option (List Item) :=
  parseItemsGo tf (l.length + 1) (skipWsH l)

/-! ### Combinator header (`parser.rs` lines 19–139, chumsky)

The chumsky combinators are deterministic with full backtracking on
`or`/`or_not`/`repeated` failure, so each is a function from the
remaining input to an optional value and remaining input. -/

/-- One iteration of the `ws()` choice: a non-empty whitespace run, a
`///` or `//` run through the newline (or end), or a `/* … */` block.
The block-comment alternative mirrors the source exactly: `take_until`
already consumes the first `*/` and the subsequent `then_ignore` demands
a second one, so an ordinary block comment makes this alternative fail. -/
def chLineTail (l : List Char) : List Char :=
  match l.dropWhile (· ≠ '\n') with
  | '\n' :: t => t
  | _ => []

/-- Consume up to and including the first `*/` (chumsky `take_until`). -/
def dropThroughStarSlash : List Char → Option (List Char)
  | '*' :: '/' :: rest => some rest
  | _ :: rest => dropThroughStarSlash rest
  | [] => none

/-- One successful alternative of the header `ws()` parser, or `none`. -/
def cwsOnce (l : List Char) : Option (List Char) :=
  match l with
  | [] => none
  | c :: rest =>
    if isWS c then some ((c :: rest).dropWhile isWS)
    else
      match c :: rest with
      | '/' :: '/' :: '/' :: rest' => some (chLineTail rest')
      | '/' :: '/' :: rest' => some (chLineTail rest')
      | '/' :: '*' :: rest' =>
        match dropThroughStarSlash rest' with
        | none => none
        | some r =>
          match r with
          | '*' :: '/' :: rest'' => some rest''
          | _ => none
      | _ => none

/-- `ws().repeated()`: every successful alternative consumes at least one
character, so `length + 1` fuel always suffices. -/
def cwsF : Nat → List Char → List Char
  | 0, l => l
  | f + 1, l =>
    match cwsOnce l with
    | some l' => cwsF f l'
    | none => l

/-- The header `ws()` skipper. -/
def cws (l : List Char) : List Char := cwsF (l.length + 1) l

/-- chumsky `text::ident`. -/
def chIdent (l : List Char) : Option (String × List Char) :=
  match l with
  | [] => none
  | c :: rest =>
    if c = '_' || rustIsAlphabetic c then
      some (String.mk (c :: rest.takeWhile (fun x => x = '_' || rustIsAlphanumeric x)),
        rest.dropWhile (fun x => x = '_' || rustIsAlphanumeric x))
    else none

/-- chumsky `text::keyword`: an identifier that must equal the keyword
(hence a right word boundary). -/
def chKeyword (kw : String) (l : List Char) : Option (List Char) :=
  match chIdent l with
  | none => none
  | some (s, r) => if s = kw then some r else none

/-- The `(sep ident)*` tail of `qualified_name()`: separator `.` plus
`ws`, element `ident` plus `ws`; a separator not followed by an
identifier is backtracked.  Each iteration consumes the `.`. -/
def chQualMoreF : Nat → List Char → List Ident × List Char
  | 0, l => ([], l)
  | f + 1, l =>
    match l with
    | '.' :: r =>
      let r₁ := cws r
      match chIdent r₁ with
      | none => ([], l)
      | some (s, r₂) =>
        let r₃ := cws r₂
        match chQualMoreF f r₃ with
        | (more, rest) => (s :: more, rest)
    | _ => ([], l)

/-- `parser::qualified_name` (elements consume their trailing `ws`). -/
def chQualified (l : List Char) : Option (List Ident × List Char) :=
  match chIdent l with
  | none => none
  | some (s, r) =>
    let r₁ := cws r
    match chQualMoreF (r₁.length + 1) r₁ with
    | (more, rest) => some (s :: more, rest)

/-- The `(',' ws ident ws)*` tail of the member list, with
`allow_trailing`: a final separator not followed by an identifier is
consumed.  Each iteration consumes the `,`. -/
def chMemberMoreF : Nat → List Char → List Ident × List Char
  | 0, l => ([], l)
  | f + 1, l =>
    match l with
    | ',' :: r =>
      let r₁ := cws r
      match chIdent r₁ with
      | none => ([], r₁)
      | some (s, r₂) =>
        let r₃ := cws r₂
        match chMemberMoreF f r₃ with
        | (more, rest) => (s :: more, rest)
    | _ => ([], l)

/-- The (possibly empty) identifier list inside the member braces. -/
def chMemberElems (l : List Char) : List Ident × List Char :=
  match chIdent l with
  | none => ([], l)
  | some (s, r) =>
    let r₁ := cws r
    match chMemberMoreF (r₁.length + 1) r₁ with
    | (more, rest) => (s :: more, rest)

/-- `parser::member_list_parser`. -/
def chMemberList (l : List Char) : Option (List Ident × List Char) :=
  match cws l with
  | '{' :: r =>
    let r₁ := cws r
    match chMemberElems r₁ with
    | (ms, r₂) =>
      match cws r₂ with
      | '}' :: r₃ => some (ms, cws r₃)
      | _ => none
  | _ => none

/-- `parser::alias_parser`. -/
def chAlias (l : List Char) : Option (Ident × List Char) :=
  match chKeyword "as" (cws l) with
  | none => none
  | some r =>
    match chIdent (cws r) with
    | none => none
    | some (t, r₂) => some (t, cws r₂)

/-- `parser::import_tail`: `(alias memberList?) | (memberList alias?) |
ε`, with full backtracking between the alternatives. -/
def chImportTail (l : List Char) : (Option Ident × Option (List Ident)) × List Char :=
  match chAlias l with
  | some (t, r) =>
    match chMemberList r with
    | some (ms, r₂) => ((some t, some ms), r₂)
    | none => ((some t, none), r)
  | none =>
    match chMemberList l with
    | some (ms, r) =>
      match chAlias r with
      | some (t, r₂) => ((some t, some ms), r₂)
      | none => ((none, some ms), r)
    | none => ((none, none), l)

/-- One import clause (`parser::import_parser`). -/
def chImport (l : List Char) : Option (Import × List Char) :=
  match chKeyword "import" (cws l) with
  | none => none
  | some r =>
    match chQualified (cws r) with
    | none => none
    | some (path, r₂) =>
      match chImportTail (cws r₂) with
      | ((al, ms), r₃) => some (⟨path, ms, al⟩, r₃)

/-- `import_parser().repeated()`: each successful clause consumes at
least the `import` keyword. -/
def chImportsF : Nat → List Char → List Import × List Char
  | 0, l => ([], l)
  | f + 1, l =>
    match chImport l with
    | none => ([], l)
    | some (imp, r) =>
      match chImportsF f r with
      | (more, rest) => (imp :: more, rest)

/-- The import sequence of the header. -/
def chImports (l : List Char) : List Import × List Char :=
  chImportsF (l.length + 1) l

/-- `parser::module_decl`: an optional `module` keyword with a qualified
name; on any failure `or_not` rewinds completely. -/
def chModuleDecl (l : List Char) : Option QualifiedName × List Char :=
  match chKeyword "module" l with
  | none => (none, l)
  | some r =>
    match chQualified (cws r) with
    | none => (none, l)
    | some (q, r₂) => (some q, cws r₂)

/-- `parser::parse_module` / `module_parser`: skip `ws`, the optional
module declaration, the imports, then hand the entire remainder to the
item dispatcher.  The header itself cannot fail (`or_not` plus an
all-consuming remainder); `none` is divergence or a panic of the item
phase. -/
def parseModuleF (tf : Nat) (source : String) : Option Module :=
  let l := cws source.data
  match chModuleDecl l with
  | (name, l₁) =>
    match chImports l₁ with
    | (imports, l₂) =>
      match parseItemsFromRemainder tf l₂ with
      | none => none
      | some items => some ⟨name, imports, items⟩

/-! ### Support lemmas: the `parse_type_arguments` divergence

At end-of-input, one iteration of the Rust `parse_type_arguments` loop
pushes `Unknown("")`, fails both `consume` calls, and repeats with the
cursor unchanged — it never terminates.  In the fuel model that is
`none` for every fuel. -/

theorem tpWithOptional_nil :
    ∀ f, tpWithOptional f ([] : List Char) = none ∨
      tpWithOptional f ([] : List Char) = some (none, []) := by
  intro f
  match f with
  | 0 => exact Or.inl rfl
  | 1 => exact Or.inl rfl
  | g + 2 => exact Or.inr rfl

theorem tpArguments_nil (closing : Char) : ∀ f, tpArguments f closing [] = none := by
  intro f
  induction f with
  | zero => rfl
  | succ g ih =>
    have h1 : tpArguments (g + 1) closing [] =
        (match tpWithOptional g [] with
         | none => none
         | some (tyO, l₂) =>
           match tpConsume closing (tpSkipWs l₂) with
           | (true, l₃) => some ([tyO.getD (.Unknown "")], l₃)
           | (false, l₃) =>
             match tpArguments g closing (tpConsume ',' l₃).2 with
             | none => none
             | some (args, l₄) => some (tyO.getD (.Unknown "") :: args, l₄)) := rfl
    rw [h1]
    rcases tpWithOptional_nil g with h | h <;> rw [h]
    have h2 : (match (some ((none : Option TypeExpr), ([] : List Char))) with
         | none => none
         | some (tyO, l₂) =>
           match tpConsume closing (tpSkipWs l₂) with
           | (true, l₃) => some ([tyO.getD (.Unknown "")], l₃)
           | (false, l₃) =>
             match tpArguments g closing (tpConsume ',' l₃).2 with
             | none => none
             | some (args, l₄) => some (tyO.getD (.Unknown "") :: args, l₄)) =
        (match tpArguments g closing [] with
         | none => none
         | some (args, l₄) => some (TypeExpr.Unknown "" :: args, l₄)) := rfl
    rw [h2, ih]

/-- The type text `Map[String` (produced by splitting
`m: Map[String, Int]` at its comma) sends `TypeParser::parse` into the
non-terminating argument loop: no fuel yields a result. -/
theorem tpWithOptional_mapOpen (f : Nat) :
    tpWithOptional f "Map[String".data = none := by
  match f with
  | 0 | 1 | 2 | 3 | 4 | 5 => rfl
  | g + 6 =>
    have h1 : tpArguments (g + 4) ']' "String".data =
        (match tpArguments (g + 3) ']' [] with
         | none => none
         | some (args, l₄) => some (TypeExpr.Simple ["String"] :: args, l₄)) := rfl
    have h2 : tpInner (g + 5) "Map[String".data =
        (match tpArguments (g + 4) ']' "String".data with
         | none => none
         | some (args, l₆) => some (some (TypeExpr.Generic ["Map"] args), l₆)) := rfl
    have h3 : tpWithOptional (g + 6) "Map[String".data =
        (match tpInner (g + 5) "Map[String".data with
         | none => none
         | some (none, l₁) => some (none, l₁)
         | some (some ty, l₁) =>
           if (tpSkipWs l₁).head? = some '?' then some (some (.Optional ty), (tpSkipWs l₁).tail)
           else some (some ty, tpSkipWs l₁)) := rfl
    rw [h3, h2, h1, tpArguments_nil]

theorem parseTypeExprF_mapOpen (f : Nat) : parseTypeExprF f "Map[String" = none := by
  have h1 : parseTypeExprF f "Map[String" =
      (match tpWithOptional f "Map[String".data with
       | none => none
       | some (none, _) => some (.Unknown "Map[String")
       | some (some ty, l) =>
         if tpSkipWs l = [] then some ty else some (.Unknown "Map[String")) := rfl
  rw [h1, tpWithOptional_mapOpen]

/-- `parse_params` on `m: Map[String, Int]` diverges: the naive comma
split hands `Map[String` to the type parser. -/
theorem parseParam_mapOpen (tf : Nat) : parseParam tf "m: Map[String".data = none := by
  have h1 : parseParam tf "m: Map[String".data =
      (match parseTypeExprF tf "Map[String" with
       | none => none
       | some ty => some (some ⟨"m", ty, none⟩)) := rfl
  rw [h1, parseTypeExprF_mapOpen]

theorem parseParams_mapStringInt (tf : Nat) :
    parseParams tf "m: Map[String, Int]".data = none := by
  have h1 : parseParams tf "m: Map[String, Int]".data =
      (match parseParam tf "m: Map[String".data with
       | none => none
       | some none => parseParamsGo tf [" Int]".data]
       | some (some p) => (parseParamsGo tf [" Int]".data]).map (p :: ·)) := rfl
  rw [h1, parseParam_mapOpen]

theorem parseTaskDecl_mapStringInt (tf : Nat) :
    parseTaskDecl tf "task T(m: Map[String, Int]) \x7b \x7d".data = none := by
  have h1 : parseTaskDecl tf "task T(m: Map[String, Int]) \x7b \x7d".data =
      (match parseParams tf "m: Map[String, Int]".data with
       | none => none
       | some params =>
         some (some (.Task ⟨"T", params, none, ⟨"", []⟩⟩, []))) := rfl
  rw [h1, parseParams_mapStringInt]

theorem parseItems_mapStringInt (tf : Nat) :
    parseItemsFromRemainder tf "task T(m: Map[String, Int]) \x7b \x7d".data = none := by
  have h1 : parseItemsFromRemainder tf "task T(m: Map[String, Int]) \x7b \x7d".data =
      (match parseTaskDecl tf "task T(m: Map[String, Int]) \x7b \x7d".data with
       | none => none
       | some (some (item, rest)) => (parseItemsGo tf 31 (skipWsH rest)).map (item :: ·)
       | some none => some [.Other "task T(m: Map[String, Int]) \x7b \x7d"]) := rfl
  rw [h1, parseTaskDecl_mapStringInt]

/-! ### Claim theorems (concrete evaluations) -/

/-- C1: for the source `task D() { let items = response?.data["items"]
return items }` the code does *not* build
`Index(OptionalChain(Identifier response, data), Literal "items")` — the
`Expression` enum of `ast.rs` has no such constructors, and
`parse_expression` leaves the whole text as `Raw`, so the task's first
body statement is a `Let` whose value is
`Raw("response?.data[\"items\"]")` (the crate's own test
`parses_optional_and_index_expressions` expects the claimed shape). -/
theorem hilo_c1_code_eval :
    parseModuleF 0 "task D() \x7b let items = response?.data[\"items\"]\nreturn items \x7d" =
      some ⟨none, [],
        [.Task ⟨"D", [], none,
          ⟨"let items = response?.data[\"items\"]\nreturn items",
           [.Let "items" none (some (.Raw "response?.data[\"items\"]")),
            .Return (some (.Identifier "items"))]⟩⟩]⟩ := rfl

/-- C2: `parse_expression` has no struct-literal recognition at all (and
`ast.rs` has no `StructLiteral` constructor): a well-formed struct
literal text falls through call, binary, member, identifier and literal
recognition and comes back as `Raw` (the crate's own test
`parses_sample_project_main` expects a `StructLiteral`). -/
theorem hilo_c2_code_eval :
    parseExpression "Brief \x7b title: topic \x7d".data =
      some (.Raw "Brief \x7b title: topic \x7d") := rfl

/-- C3: `parse_params` splits at *every* comma (`src.split(',')`), not at
depth-zero commas: on `m: Map[String, Int]` the first piece is
`m: Map[String`, whose type text `Map[String` drives
`parse_type_arguments` into its non-terminating end-of-input loop — for
every fuel the parameter parse yields nothing (the Rust code hangs), and
the split really is at the bracket-protected comma. -/
theorem hilo_c3_code_eval :
    (∀ tf, parseParams tf "m: Map[String, Int]".data = none) ∧
      splitAll ',' "m: Map[String, Int]".data = ["m: Map[String".data, " Int]".data] :=
  ⟨parseParams_mapStringInt, rfl⟩

/-- C7: the item dispatcher is *not* total: on the remainder
`task T(m: Map[String, Int]) { }` the task recognizer inherits the
non-termination of the parameter type sub-parse (see C3), so for every
fuel the dispatch yields nothing — it neither emits items nor stops. -/
theorem hilo_c7_code_eval :
    ∀ tf, parseItemsFromRemainder tf "task T(m: Map[String, Int]) \x7b \x7d".data = none :=
  parseItems_mapStringInt

/-- C9: `parse_binary_expression` slices the source at `Vec<char>`
indices used as byte offsets; on `aé` the candidate slice
`&src[0..=1]` ends inside the two-byte `é` — a Rust panic (`none` in the
byte model, independent of any fuel), and hence `parse_module` panics on
`task T() { aé }` instead of returning `Ok`/`Err`. -/
theorem hilo_c9_code_eval :
    parseBinaryExpression "aé".data = none ∧
      ∀ tf, parseModuleF tf "task T() \x7b aé \x7d" = none :=
  ⟨rfl, fun _ => rfl⟩

/-- C4 counterexample: for `task T() -> { k: Int } { return k }` the
return-type region stops at the *first* `{` — the struct's own opening
brace — so the region is empty: the parsed task records *no* return type
(not `Struct([{k, Int}])`), takes `{ k: Int }` as its body, and leaves
`{ return k }` behind. -/
theorem hilo_c4_counterexample :
    parseTaskDecl 0 "task T() -> \x7b k: Int \x7d \x7b return k \x7d".data =
      some (some (.Task ⟨"T", [], none, ⟨"k: Int", [.Expr (.Raw "k: Int")]⟩⟩,
        "\x7b return k \x7d".data)) ∧
      (none : Option TypeExpr) ≠
        some (.Struct [("k", false, .Simple ["Int"])]) :=
  ⟨rfl, fun h => Option.noConfusion h⟩

/-- C5 counterexample: for the type text `T = "Int Int"` (whose own parse
is `Unknown "Int Int"`), `List[Int Int]` does not parse to
`List(parse T)`: the atom phase consumes only `Int`, leaves `Int]`
unconsumed, and the whole input collapses to `Unknown "List[Int Int]"`. -/
theorem hilo_c5_counterexample :
    parseTypeExprF 20 "List[Int Int]" = some (.Unknown "List[Int Int]") ∧
      parseTypeExprF 20 "Int Int" = some (.Unknown "Int Int") ∧
      TypeExpr.Unknown "List[Int Int]" ≠ TypeExpr.List (.Unknown "Int Int") :=
  ⟨rfl, rfl, fun h => TypeExpr.noConfusion h⟩

/-- C8 counterexample: after the unterminated block comment `/*abc` the
hand-written skipper leaves the cursor *on* the final `c`, not at
end-of-input (`skip_block_comment` only loops while `idx + 1 < len`), and
that `c` then surfaces as an `Other` item. -/
theorem hilo_c8_counterexample :
    skipWsH "/*abc".data = ['c'] ∧
      parseItemsFromRemainder 0 "/*abc".data = some [.Other "c"] := ⟨rfl, rfl⟩

/-! ### Support lemmas: splitting and trimming -/

theorem splitOnce_eq_none (c : Char) : ∀ l : List Char, c ∉ l → splitOnce c l = none := by
  intro l
  induction l with
  | nil => intro _; rfl
  | cons x rest ih =>
    intro h
    have hx : ¬ x = c := fun he => h (he ▸ List.mem_cons_self x rest)
    have hr : c ∉ rest := fun hm => h (List.mem_cons_of_mem x hm)
    simp [splitOnce, hx, ih hr]

theorem splitOnce_mem (c : Char) :
    ∀ (l : List Char) (p : List Char × List Char), splitOnce c l = some p → c ∈ l := by
  intro l
  induction l with
  | nil => intro p h; exact absurd h (by simp [splitOnce])
  | cons x rest ih =>
    intro p h
    by_cases hx : x = c
    · exact hx ▸ List.mem_cons_self x rest
    · simp only [splitOnce, if_neg hx] at h
      match hr : splitOnce c rest with
      | none => rw [hr] at h; exact absurd h (by simp)
      | some q => exact List.mem_cons_of_mem x (ih q hr)

theorem rTrim_sublist (l : List Char) : List.Sublist (rTrim l) l := by
  have h1 : List.Sublist (trimL l) l := List.dropWhile_sublist _
  have h2 : List.Sublist (trimR (trimL l)) (trimL l) := by
    have h3 : List.Sublist ((trimL l).reverse.dropWhile isWS) (trimL l).reverse :=
      List.dropWhile_sublist _
    have h4 := h3.reverse
    simpa [trimR] using h4
  exact h2.trans h1

theorem mem_rTrim {a : Char} {l : List Char} (h : a ∈ rTrim l) : a ∈ l :=
  (rTrim_sublist l).subset h

/-! ### C10: record-field lines without a colon -/

/-- The per-line `filter_map` closure never errs on a colon-free line,
and every parsed field's line contains a colon (the key step of the
second half of C10). -/
theorem parseRecordFieldLine_some_colon (tf : Nat) (line : List Char) (g : RecordField)
    (h : parseRecordFieldLine tf line = some (some g)) : ':' ∈ line := by
  by_cases h1 : rTrim line = []
  · simp [parseRecordFieldLine, h1] at h
  · by_cases h2 : ("//".data.isPrefixOf (rTrim line) || "/*".data.isPrefixOf (rTrim line) ||
        "\x7d".data.isPrefixOf (rTrim line)) = true
    · simp [parseRecordFieldLine, h1, h2] at h
    · match hs : splitOnce ':' (rTrim line) with
      | none => simp [parseRecordFieldLine, h1, h2, hs] at h
      | some p => exact mem_rTrim (splitOnce_mem ':' (rTrim line) p hs)

theorem parseRecordFieldsGo_colon (tf : Nat) :
    ∀ (lines : List (List Char)) (fields : List RecordField),
      parseRecordFieldsGo tf lines = some fields →
      ∀ fld ∈ fields, ∃ line ∈ lines, ':' ∈ line := by
  intro lines
  induction lines with
  | nil =>
    intro fields h fld hf
    simp only [parseRecordFieldsGo] at h
    cases h
    simp at hf
  | cons line rest ih =>
    intro fields h fld hf
    match hl : parseRecordFieldLine tf line with
    | none => rw [parseRecordFieldsGo, hl] at h; exact absurd h (by simp)
    | some none =>
      rw [parseRecordFieldsGo, hl] at h
      obtain ⟨l', hl', hc⟩ := ih fields h fld hf
      exact ⟨l', List.mem_cons_of_mem _ hl', hc⟩
    | some (some g) =>
      rw [parseRecordFieldsGo, hl] at h
      match hr : parseRecordFieldsGo tf rest with
      | none => rw [hr] at h; exact absurd h (by simp)
      | some fl =>
        rw [hr] at h
        simp only [Option.map_some] at h
        cases h
        rcases List.mem_cons.mp hf with hfg | hfl
        · exact ⟨line, List.mem_cons_self _ _,
            parseRecordFieldLine_some_colon tf line g hl⟩
        · obtain ⟨l', hl', hc⟩ := ih fl hr fld hfl
          exact ⟨l', List.mem_cons_of_mem _ hl', hc⟩

/-- C10: in a record body, a trimmed line that is non-empty, does not
begin with `//`, `/*` or `}`, and contains no colon produces no
`RecordField` and raises no error (the closure yields `some none`,
i.e. Rust's silent `None`); and every field of a parsed record comes
from a body line containing a `:`. -/
theorem hilo_c10_thm :
    (∀ (tf : Nat) (line : List Char),
       rTrim line ≠ [] →
       "//".data.isPrefixOf (rTrim line) = false →
       "/*".data.isPrefixOf (rTrim line) = false →
       "\x7d".data.isPrefixOf (rTrim line) = false →
       ':' ∉ rTrim line →
       parseRecordFieldLine tf line = some none) ∧
    (∀ (tf : Nat) (body : List Char) (fields : List RecordField),
       parseRecordFields tf body = some fields →
       ∀ fld ∈ fields, ∃ line ∈ rustLines body, ':' ∈ line) := by
  constructor
  · intro tf line h1 h2 h3 h4 h5
    simp [parseRecordFieldLine, h1, h2, h3, h4, splitOnce_eq_none ':' (rTrim line) h5]
  · intro tf body fields h fld hf
    exact parseRecordFieldsGo_colon tf (rustLines body) fields h fld hf

/-- Witness for C10 at the concrete line `abc` and body `abc`. -/
theorem hilo_c10_witness :
    (rTrim "abc".data ≠ [] ∧ ':' ∉ rTrim "abc".data) ∧
      parseRecordFieldLine 0 "abc".data = some none :=
  ⟨⟨by decide, by decide⟩,
    hilo_c10_thm.1 0 "abc".data (by decide) (by decide) (by decide) (by decide) (by decide)⟩

/-! ### C6: import tail permutation -/

/-- C6: the two concrete imports `core.text { a, b } as t` and
`core.text as t { a, b }` produce structurally identical modules; and in
general, whenever an alias clause text and a member-list text parse on
their own (in either position), `import_tail` yields the same
`(alias, members)` pair in both orders. -/
theorem hilo_c6_thm :
    (parseModuleF 0 "import core.text \x7b a, b \x7d as t" =
        some ⟨none, [⟨["core", "text"], some ["a", "b"], some "t"⟩], []⟩ ∧
     parseModuleF 0 "import core.text as t \x7b a, b \x7d" =
        some ⟨none, [⟨["core", "text"], some ["a", "b"], some "t"⟩], []⟩) ∧
    ∀ (lA lM rest : List Char) (t : Ident) (ms : List Ident),
      chAlias (lA ++ (lM ++ rest)) = some (t, lM ++ rest) →
      chAlias (lA ++ rest) = some (t, rest) →
      chAlias (lM ++ (lA ++ rest)) = none →
      chMemberList (lM ++ rest) = some (ms, rest) →
      chMemberList (lM ++ (lA ++ rest)) = some (ms, lA ++ rest) →
      chImportTail (lA ++ (lM ++ rest)) = ((some t, some ms), rest) ∧
        chImportTail (lM ++ (lA ++ rest)) = ((some t, some ms), rest) := by
  refine ⟨⟨rfl, rfl⟩, ?_⟩
  intro lA lM rest t ms h1 h2 h3 h4 h5
  constructor
  · simp only [chImportTail, h1, h4]
  · simp only [chImportTail, h3, h5, h2]

/-- Witness for C6's general part: alias text `as t `, member-list text
`{ a, b } `, empty rest. -/
theorem hilo_c6_witness :
    chAlias ("as t ".data ++ ("\x7b a, b \x7d ".data ++ [])) =
        some ("t", "\x7b a, b \x7d ".data ++ []) ∧
      chImportTail ("as t ".data ++ ("\x7b a, b \x7d ".data ++ [])) =
        ((some "t", some ["a", "b"]), []) :=
  ⟨rfl,
    (hilo_c6_thm.2 "as t ".data "\x7b a, b \x7d ".data [] "t" ["a", "b"]
      rfl rfl rfl rfl rfl).1⟩

/-! ### C8 amended: where the block-comment skipper stops -/

/-- `*/` occurs nowhere in the list (as an adjacent pair). -/
def hasStarSlash : List Char → Bool
  | [] => false
  | [_] => false
  | c₁ :: c₂ :: rest => (c₁ = '*' && c₂ = '/') || hasStarSlash (c₂ :: rest)

/-- C8 (amended): past an unterminated `/*`, `skip_block_comment`
consumes to end-of-input *except* that it stops on the final character
when that character is a single UTF-8 byte (the loop guard is
`idx + 1 < len`); it never fails, but the leftover final character can
surface as an `Other` item (see the counterexample). -/
theorem hilo_c8_amended :
    ∀ l : List Char, hasStarSlash l = false →
      skipBlockComment l =
        (match l.getLast? with
         | none => []
         | some c => if c.utf8Size = 1 then [c] else []) := by
  intro l
  induction l with
  | nil => intro _; rfl
  | cons c rest ih =>
    intro h
    cases rest with
    | nil =>
      have hpos := Char.utf8Size_pos c
      by_cases h1 : c.utf8Size = 1
      · simp [skipBlockComment, h1]
      · have h2 : 2 ≤ c.utf8Size := by omega
        simp [skipBlockComment, h1, h2, Nat.not_lt.mpr h2]
    | cons c₂ rest₂ =>
      have hp : (c = '*' && c₂ = '/') = false ∧ hasStarSlash (c₂ :: rest₂) = false := by
        simpa [hasStarSlash] using h
      have hrec := ih hp.2
      simp only [skipBlockComment, hp.1, Bool.false_eq_true, if_false]
      rw [hrec]
      simp [List.getLast?]

/-- Witness for C8's amended statement at the comment body `abc`. -/
theorem hilo_c8_witness :
    hasStarSlash "abc".data = false ∧
      skipBlockComment "abc".data =
        (match "abc".data.getLast? with
         | none => []
         | some c => if c.utf8Size = 1 then [c] else []) :=
  ⟨rfl, hilo_c8_amended "abc".data rfl⟩

/-! ### Support lemmas: symbolic scanning -/

theorem dropWhile_cons_of_neg {p : Char → Bool} {c : Char} {l : List Char} (h : p c = false) :
    (c :: l).dropWhile p = c :: l := by
  simp [List.dropWhile_cons, h]

theorem head_false_of_dropWhile_fix {p : Char → Bool} {c : Char} {l : List Char}
    (h : (c :: l).dropWhile p = c :: l) : p c = false := by
  by_cases hc : p c = true
  · exfalso
    rw [List.dropWhile_cons, if_pos hc] at h
    have hlen := congrArg List.length h
    have hle : (List.dropWhile p l).length ≤ l.length :=
      (List.dropWhile_sublist _).length_le
    simp only [List.length_cons] at hlen
    omega
  · simpa using hc

theorem takeWhile_append_stop {p : Char → Bool} {e : Char} (he : p e = false) :
    ∀ (l ext : List Char), (l ++ e :: ext).takeWhile p = l.takeWhile p := by
  intro l ext
  induction l with
  | nil => simp [List.takeWhile_cons, he]
  | cons x xs ih => by_cases hx : p x = true <;> simp [List.takeWhile_cons, hx, ih]

theorem dropWhile_append_stop {p : Char → Bool} {e : Char} (he : p e = false) :
    ∀ (l ext : List Char), (l ++ e :: ext).dropWhile p = l.dropWhile p ++ e :: ext := by
  intro l ext
  induction l with
  | nil => simp [List.dropWhile_cons, he]
  | cons x xs ih => by_cases hx : p x = true <;> simp [List.dropWhile_cons, hx, ih]

theorem scanToBrace_append :
    ∀ (l rest : List Char), '\x7b' ∉ l →
      scanToBrace (l ++ '\x7b' :: rest) = (l, '\x7b' :: rest) := by
  intro l rest
  induction l with
  | nil => intro _; simp [scanToBrace]
  | cons c cs ih =>
    intro h
    have hc : ¬ c = '\x7b' := fun he => h (he ▸ List.mem_cons_self c cs)
    have hcs : '\x7b' ∉ cs := fun hm => h (List.mem_cons_of_mem c hm)
    simp [scanToBrace, hc, ih hcs]

theorem extractBalancedAux_braces :
    ∀ (b : List Char), '\x7b' ∉ b → '\x7d' ∉ b → '"' ∉ b →
      ∀ (acc rest : List Char),
        extractBalancedAux '\x7b' '\x7d' (b ++ '\x7d' :: rest) 1 false false acc =
          some (acc ++ b, rest) := by
  intro b
  induction b with
  | nil =>
    intro _ _ _ acc rest
    simp [extractBalancedAux]
  | cons c bs ih =>
    intro h1 h2 h3 acc rest
    have hc1 : ¬ c = '\x7b' := fun he => h1 (he ▸ List.mem_cons_self c bs)
    have hc2 : ¬ c = '\x7d' := fun he => h2 (he ▸ List.mem_cons_self c bs)
    have hc3 : ¬ c = '"' := fun he => h3 (he ▸ List.mem_cons_self c bs)
    have hb1 : '\x7b' ∉ bs := fun hm => h1 (List.mem_cons_of_mem c hm)
    have hb2 : '\x7d' ∉ bs := fun hm => h2 (List.mem_cons_of_mem c hm)
    have hb3 : '"' ∉ bs := fun hm => h3 (List.mem_cons_of_mem c hm)
    have hrec := ih hb1 hb2 hb3 (acc ++ [c]) rest
    rw [List.append_assoc, List.singleton_append] at hrec
    simpa [extractBalancedAux, hc1, hc2, hc3] using hrec

theorem extractBalanced_braces (b rest : List Char)
    (h1 : '\x7b' ∉ b) (h2 : '\x7d' ∉ b) (h3 : '"' ∉ b) :
    extractBalanced ('\x7b' :: (b ++ '\x7d' :: rest)) '\x7b' '\x7d' = some (b, rest) := by
  have h := extractBalancedAux_braces b h1 h2 h3 [] rest
  rw [List.nil_append] at h
  simpa [extractBalanced] using h

theorem skipWsF_result {l r : List Char} {c : Char} (hd : l.dropWhile isWS = c :: r)
    (h2 : c ≠ '/') : ∀ f, skipWsF (f + 1) l = c :: r := by
  intro f
  have hp : ∀ (tail : List Char), (('/' :: tail).isPrefixOf (c :: r)) = false := by
    intro tail
    simp [List.isPrefixOf, Ne.symm h2]
  simp only [skipWsF, hd]
  simp [hp ['/', '/'], hp ['/'], hp ['*']]

theorem skipWsH_result {l r : List Char} {c : Char} (hd : l.dropWhile isWS = c :: r)
    (h2 : c ≠ '/') : skipWsH l = c :: r :=
  skipWsF_result hd h2 l.length

theorem skipWsH_nil : skipWsH [] = [] := rfl

theorem rTrim_snoc_space {rt : List Char} (h0 : rt ≠ [])
    (h1 : rt.dropWhile isWS = rt) (h2 : trimR rt = rt) :
    rTrim (rt ++ [' ']) = rt := by
  obtain ⟨c, cs, rfl⟩ : ∃ c cs, rt = c :: cs := by
    cases rt with
    | nil => exact absurd rfl h0
    | cons c cs => exact ⟨c, cs, rfl⟩
  have hcws : isWS c = false := head_false_of_dropWhile_fix h1
  have hrev : List.dropWhile isWS (cs.reverse ++ [c]) = cs.reverse ++ [c] := by
    have h2' := congrArg List.reverse h2
    simp only [trimR, List.reverse_reverse] at h2'
    simpa using h2'
  unfold rTrim trimL trimR
  rw [show ((c :: cs) ++ [' '] : List Char) = c :: (cs ++ [' ']) from rfl]
  rw [dropWhile_cons_of_neg hcws]
  have hrevshape : (c :: (cs ++ [' '])).reverse = ' ' :: (cs.reverse ++ [c]) := by
    simp
  rw [hrevshape, List.dropWhile_cons]
  simp only [show isWS ' ' = true from rfl, if_true]
  rw [hrev]
  simp

/-! ### C4 amended: the return-type region -/

/-- Ground-prefix evaluation of `parse_task_decl` on
`task T() -> ` followed by arbitrary text: keyword, name and empty
parameter list are consumed, and the parse is stuck at the whitespace
skip after `->`. -/
theorem parseTaskDecl_front (tf : Nat) (X : List Char) :
    parseTaskDecl tf ("task T() -> ".data ++ X) =
      (match scanToBrace (skipWsH (' ' :: X)) with
       | (region, rest₂) =>
         match (if rTrim region = [] then some ((none : Option TypeExpr), rest₂)
                else
                  match parseTypeExprF tf (String.mk (rTrim region)) with
                  | none => none
                  | some ty => some (some ty, rest₂)) with
         | none => none
         | some (returnType, l₆) =>
           let l₇ := skipWsH l₆
           if l₇.head? ≠ some '\x7b' then some none
           else
             match extractBalanced l₇ '\x7b' '\x7d' with
             | none => some none
             | some (bodySrc, l₈) =>
               match buildBlock tf bodySrc with
               | none => none
               | some body =>
                 some (some (.Task ⟨"T", [], returnType, body⟩, skipWsH l₈))) := rfl

/-- C4 (amended): the return-type region of a task extends from just
after `->` (whitespace skipped) up to the *first* `{`; a task whose
return type would be an anonymous struct therefore has an *empty* region
— `task T() -> { k: Int } { return k }` records *no* return type and
takes the struct's brace group as the body — and in general a non-empty
region is handed to the type parser while an empty region records
nothing. -/
theorem hilo_c4_amended :
    (parseTaskDecl 0 "task T() -> \x7b k: Int \x7d \x7b return k \x7d".data =
       some (some (.Task ⟨"T", [], none, ⟨"k: Int", [.Expr (.Raw "k: Int")]⟩⟩,
         "\x7b return k \x7d".data))) ∧
    (∀ (tf : Nat) (rt body : List Char) (ty : TypeExpr) (blk : Block),
       rt ≠ [] → rt.dropWhile isWS = rt → trimR rt = rt →
       '\x7b' ∉ rt → rt.head? ≠ some '/' →
       '\x7b' ∉ body → '\x7d' ∉ body → '"' ∉ body →
       parseTypeExprF tf (String.mk rt) = some ty →
       buildBlock tf body = some blk →
       parseTaskDecl tf
           ("task T() -> ".data ++ (rt ++ (" \x7b".data ++ (body ++ "\x7d".data)))) =
         some (some (.Task ⟨"T", [], some ty, blk⟩, []))) ∧
    (∀ (tf : Nat) (body : List Char) (blk : Block),
       '\x7b' ∉ body → '\x7d' ∉ body → '"' ∉ body →
       buildBlock tf body = some blk →
       parseTaskDecl tf ("task T() -> ".data ++ ("\x7b".data ++ (body ++ "\x7d".data))) =
         some (some (.Task ⟨"T", [], none, blk⟩, []))) := by
  refine ⟨rfl, ?_, ?_⟩
  · intro tf rt body ty blk h0 h1 h2 h3 h4 hb1 hb2 hb3 hty hblk
    obtain ⟨c, cs, rfl⟩ : ∃ c cs, rt = c :: cs := by
      cases rt with
      | nil => exact absurd rfl h0
      | cons c cs => exact ⟨c, cs, rfl⟩
    have hcws : isWS c = false := head_false_of_dropWhile_fix h1
    have hcsl : c ≠ '/' := by
      intro he
      exact h4 (by simp [he])
    have hskip : skipWsH (' ' :: ((c :: cs) ++ (" \x7b".data ++ (body ++ "\x7d".data)))) =
        c :: (cs ++ (" \x7b".data ++ (body ++ "\x7d".data))) := by
      refine skipWsH_result ?_ hcsl
      rw [List.dropWhile_cons]
      simp only [show isWS ' ' = true from rfl, if_true, List.cons_append]
      exact dropWhile_cons_of_neg hcws
    have hshape : c :: (cs ++ (" \x7b".data ++ (body ++ "\x7d".data))) =
        ((c :: cs) ++ [' ']) ++ '\x7b' :: (body ++ '\x7d' :: []) := by
      simp [show (" \x7b".data : List Char) = ' ' :: '\x7b' :: [] from rfl,
        show ("\x7d".data : List Char) = ['\x7d'] from rfl]
    have hnb : '\x7b' ∉ (c :: cs) ++ [' '] := by
      intro hm
      rcases List.mem_append.mp hm with hm | hm
      · exact h3 hm
      · simp at hm
    have htrim : rTrim ((c :: cs) ++ [' ']) = c :: cs := rTrim_snoc_space h0 h1 h2
    have hskip2 : skipWsH ('\x7b' :: (body ++ '\x7d' :: [])) =
        '\x7b' :: (body ++ '\x7d' :: []) := by
      refine skipWsH_result ?_ (by decide)
      exact dropWhile_cons_of_neg (by decide)
    rw [parseTaskDecl_front]
    simp only [hskip]
    rw [hshape]
    simp only [scanToBrace_append ((c :: cs) ++ [' ']) (body ++ '\x7d' :: []) hnb]
    simp only [htrim]
    rw [if_neg h0]
    simp only [hty]
    simp only [hskip2]
    rw [if_neg (show ¬ (('\x7b' :: (body ++ '\x7d' :: [])).head? ≠ some '\x7b') from by simp)]
    simp only [extractBalanced_braces body [] hb1 hb2 hb3]
    simp only [hblk]
    simp only [skipWsH_nil]
  · intro tf body blk hb1 hb2 hb3 hblk
    have hskip : skipWsH (' ' :: ("\x7b".data ++ (body ++ "\x7d".data))) =
        '\x7b' :: (body ++ "\x7d".data) := by
      refine skipWsH_result ?_ (by decide)
      rw [List.dropWhile_cons]
      simp only [show isWS ' ' = true from rfl, if_true]
      rw [show ("\x7b".data : List Char) ++ (body ++ "\x7d".data) =
        '\x7b' :: (body ++ "\x7d".data) from rfl]
      exact dropWhile_cons_of_neg (by decide)
    have hscan : scanToBrace ('\x7b' :: (body ++ "\x7d".data)) =
        ([], '\x7b' :: (body ++ "\x7d".data)) := by
      simp [scanToBrace]
    have hskip2 : skipWsH ('\x7b' :: (body ++ "\x7d".data)) =
        '\x7b' :: (body ++ "\x7d".data) := by
      refine skipWsH_result ?_ (by decide)
      exact dropWhile_cons_of_neg (by decide)
    rw [parseTaskDecl_front]
    simp only [hskip]
    simp only [hscan]
    rw [if_pos (show rTrim ([] : List Char) = [] from rfl)]
    simp only [hskip2]
    rw [if_neg (show ¬ (('\x7b' :: (body ++ "\x7d".data)).head? ≠ some '\x7b') from by simp)]
    rw [show (body ++ "\x7d".data : List Char) = body ++ '\x7d' :: [] from rfl]
    simp only [extractBalanced_braces body [] hb1 hb2 hb3]
    simp only [hblk]
    simp only [skipWsH_nil]

/-! ### C5 support: cursor primitives of the type parser -/

theorem tpSkipWs_suffix (l : List Char) : List.IsSuffix (tpSkipWs l) l :=
  List.dropWhile_suffix _

theorem tpConsume_suffix (c : Char) (l : List Char) :
    List.IsSuffix (tpConsume c l).2 l := by
  have hs := tpSkipWs_suffix l
  simp only [tpConsume]
  split
  · rename_i x rest heq
    split
    · exact (List.tail_suffix (x :: rest)).trans (heq ▸ hs)
    · exact hs
  · exact hs

theorem tpConsume_fst_mem {c : Char} {l : List Char} (h : (tpConsume c l).1 = true) :
    c ∈ l := by
  have hsub := (tpSkipWs_suffix l).subset
  simp only [tpConsume] at h
  split at h
  · rename_i x rest heq
    split at h
    · rename_i hx
      subst hx
      exact hsub (heq ▸ List.mem_cons_self x rest)
    · simp at h
  · simp at h

theorem tpIdent_suffix (l : List Char) : List.IsSuffix (tpIdent l).2 l := by
  simp only [tpIdent]
  exact (List.dropWhile_suffix _).trans (List.dropWhile_suffix _)

theorem tpIdent_ext {e : Char} (tl : List Char)
    (hA : isWS e = false) (hB : tpIdentChar e = false) (l : List Char) :
    tpIdent (l ++ e :: tl) = ((tpIdent l).1, (tpIdent l).2 ++ e :: tl) := by
  simp only [tpIdent, tpSkipWs]
  rw [dropWhile_append_stop hA, takeWhile_append_stop hB, dropWhile_append_stop hB]

theorem tpConsume_ext {e : Char} (tl : List Char) (c : Char)
    (hA : isWS e = false) (hc : c ≠ e) (l : List Char) :
    tpConsume c (l ++ e :: tl) = ((tpConsume c l).1, (tpConsume c l).2 ++ e :: tl) := by
  simp only [tpConsume, tpSkipWs]
  rw [dropWhile_append_stop hA]
  match hs : l.dropWhile isWS with
  | [] => simp [Ne.symm hc]
  | x :: rest =>
    by_cases hx : x = c
    · simp [hx]
    · simp [hx]

/-! ### C5 support: result cursors are suffixes of the input -/

mutual

theorem tpWithOptional_suffix (f : Nat) (l : List Char) (r : Option TypeExpr)
    (rem : List Char) (h : tpWithOptional f l = some (r, rem)) :
    List.IsSuffix rem l := by
  match f with
  | 0 => exact absurd h (by simp [tpWithOptional])
  | g + 1 =>
    simp only [tpWithOptional] at h
    split at h
    · exact absurd h (by simp)
    · rename_i l₁ heq
      simp only [Option.some.injEq, Prod.mk.injEq] at h
      exact h.2 ▸ tpInner_suffix g l none l₁ heq
    · rename_i ty l₁ heq
      have hsuf : List.IsSuffix (tpSkipWs l₁) l :=
        (tpSkipWs_suffix l₁).trans (tpInner_suffix g l (some ty) l₁ heq)
      split at h
      · simp only [Option.some.injEq, Prod.mk.injEq] at h
        exact h.2 ▸ (List.tail_suffix _).trans hsuf
      · simp only [Option.some.injEq, Prod.mk.injEq] at h
        exact h.2 ▸ hsuf
termination_by (f, 0)

theorem tpInner_suffix (f : Nat) (l : List Char) (r : Option TypeExpr)
    (rem : List Char) (h : tpInner f l = some (r, rem)) :
    List.IsSuffix rem l := by
  match f with
  | 0 => exact absurd h (by simp [tpInner])
  | g + 1 =>
    simp only [tpInner] at h
    have hsuf1 : List.IsSuffix (tpSkipWs l) l := tpSkipWs_suffix l
    split at h
    · rename_i h1
      simp only [Option.some.injEq, Prod.mk.injEq] at h
      exact h.2 ▸ (h1 ▸ hsuf1)
    · split at h
      · -- struct branch
        split at h
        · exact absurd h (by simp)
        · rename_i fields l₂ hsf
          simp only [Option.some.injEq, Prod.mk.injEq] at h
          exact h.2 ▸ ((tpStructFields_suffix g _ fields l₂ hsf).trans
            ((List.tail_suffix _).trans hsuf1))
      · split at h
        · exact absurd h (by simp)
        · rename_i base l₂ hq
          have hsuf2 : List.IsSuffix l₂ l :=
            (tpQualified_suffix g _ base l₂ hq).trans hsuf1
          split at h
          · simp only [Option.some.injEq, Prod.mk.injEq] at h
            exact h.2 ▸ hsuf2
          · have hsuf3 : List.IsSuffix (tpConsume '<' (tpSkipWs l₂)).2 l :=
              (tpConsume_suffix '<' _).trans ((tpSkipWs_suffix l₂).trans hsuf2)
            split at h
            · rename_i l₃ hc1
              split at h
              · exact absurd h (by simp)
              · rename_i args l₄ ha
                simp only [Option.some.injEq, Prod.mk.injEq] at h
                have hsuf3' : List.IsSuffix l₃ l := by
                  rw [hc1] at hsuf3; exact hsuf3
                exact h.2 ▸ ((tpArguments_suffix g '>' l₃ args l₄ ha).trans hsuf3')
            · rename_i l₃ hc1
              have hsuf4 : List.IsSuffix l₃ l := by
                rw [hc1] at hsuf3; exact hsuf3
              have hsuf5 : List.IsSuffix (tpConsume '[' (tpSkipWs l₃)).2 l :=
                (tpConsume_suffix '[' _).trans ((tpSkipWs_suffix l₃).trans hsuf4)
              split at h
              · rename_i l₄ hc2
                have hsuf6 : List.IsSuffix l₄ l := by
                  rw [hc2] at hsuf5; exact hsuf5
                have hsuf7 : List.IsSuffix (tpSkipWs l₄) l :=
                  (tpSkipWs_suffix l₄).trans hsuf6
                split at h
                · split at h
                  · simp only [Option.some.injEq, Prod.mk.injEq] at h
                    exact h.2 ▸ (List.tail_suffix _).trans hsuf7
                  · split at h
                    · exact absurd h (by simp)
                    · rename_i tyO l₆ hw
                      simp only [Option.some.injEq, Prod.mk.injEq] at h
                      have hsuf8 : List.IsSuffix l₆ l :=
                        (tpWithOptional_suffix g _ tyO l₆ hw).trans hsuf7
                      exact h.2 ▸ ((tpConsume_suffix ']' _).trans
                        ((tpSkipWs_suffix l₆).trans hsuf8))
                · split at h
                  · exact absurd h (by simp)
                  · rename_i args l₆ ha
                    simp only [Option.some.injEq, Prod.mk.injEq] at h
                    exact h.2 ▸ ((tpArguments_suffix g ']' _ args l₆ ha).trans hsuf7)
              · rename_i l₄ hc2
                simp only [Option.some.injEq, Prod.mk.injEq] at h
                have hsuf6 : List.IsSuffix l₄ l := by
                  rw [hc2] at hsuf5; exact hsuf5
                exact h.2 ▸ hsuf6
termination_by (f, 1)

theorem tpStructFields_suffix (f : Nat) (l : List Char)
    (fs : List (Ident × Bool × TypeExpr)) (rem : List Char)
    (h : tpStructFields f l = some (fs, rem)) : List.IsSuffix rem l := by
  match f with
  | 0 => exact absurd h (by simp [tpStructFields])
  | g + 1 =>
    simp only [tpStructFields] at h
    have hsuf1 : List.IsSuffix (tpSkipWs l) l := tpSkipWs_suffix l
    split at h
    · simp only [Option.some.injEq, Prod.mk.injEq] at h
      exact h.2 ▸ (List.tail_suffix _).trans hsuf1
    · have hsuf2 : List.IsSuffix (tpIdent (tpSkipWs l)).2 l :=
        (tpIdent_suffix _).trans hsuf1
      split at h
      · simp only [Option.some.injEq, Prod.mk.injEq] at h
        exact h.2 ▸ hsuf2
      · have hsuf3 : List.IsSuffix (tpConsume ':' (tpSkipWs (tpIdent (tpSkipWs l)).2)).2 l :=
          (tpConsume_suffix ':' _).trans ((tpSkipWs_suffix _).trans hsuf2)
        split at h
        · rename_i l₃ hc
          simp only [Option.some.injEq, Prod.mk.injEq] at h
          have : List.IsSuffix l₃ l := by rw [hc] at hsuf3; exact hsuf3
          exact h.2 ▸ this
        · rename_i l₃ hc
          have hsuf4 : List.IsSuffix l₃ l := by rw [hc] at hsuf3; exact hsuf3
          split at h
          · exact absurd h (by simp)
          · rename_i tyO l₄ hw
            have hsuf5 : List.IsSuffix l₄ l :=
              (tpWithOptional_suffix g l₃ tyO l₄ hw).trans hsuf4
            have hsuf6 : List.IsSuffix (tpConsume ',' (tpSkipWs l₄)).2 l :=
              (tpConsume_suffix ',' _).trans ((tpSkipWs_suffix l₄).trans hsuf5)
            split at h
            · rename_i l₅ hc2
              split at h
              · exact absurd h (by simp)
              · rename_i fields l₆ hsf
                simp only [Option.some.injEq, Prod.mk.injEq] at h
                have hsuf6' : List.IsSuffix l₅ l := by rw [hc2] at hsuf6; exact hsuf6
                exact h.2 ▸ ((tpStructFields_suffix g l₅ fields l₆ hsf).trans hsuf6')
            · rename_i l₅ hc2
              have hsuf7 : List.IsSuffix l₅ l := by rw [hc2] at hsuf6; exact hsuf6
              have hsuf8 : List.IsSuffix (tpSkipWs l₅) l :=
                (tpSkipWs_suffix l₅).trans hsuf7
              split at h
              · simp only [Option.some.injEq, Prod.mk.injEq] at h
                exact h.2 ▸ (List.tail_suffix _).trans hsuf8
              · simp only [Option.some.injEq, Prod.mk.injEq] at h
                exact h.2 ▸ hsuf8
termination_by (f, 0)

theorem tpArguments_suffix (f : Nat) (closing : Char) (l : List Char)
    (args : List TypeExpr) (rem : List Char)
    (h : tpArguments f closing l = some (args, rem)) : List.IsSuffix rem l := by
  match f with
  | 0 => exact absurd h (by simp [tpArguments])
  | g + 1 =>
    simp only [tpArguments] at h
    have hsuf1 : List.IsSuffix (tpSkipWs l) l := tpSkipWs_suffix l
    split at h
    · simp only [Option.some.injEq, Prod.mk.injEq] at h
      exact h.2 ▸ (List.tail_suffix _).trans hsuf1
    · split at h
      · exact absurd h (by simp)
      · rename_i tyO l₂ hw
        have hsuf2 : List.IsSuffix l₂ l :=
          (tpWithOptional_suffix g _ tyO l₂ hw).trans hsuf1
        have hsuf3 : List.IsSuffix (tpConsume closing (tpSkipWs l₂)).2 l :=
          (tpConsume_suffix closing _).trans ((tpSkipWs_suffix l₂).trans hsuf2)
        split at h
        · rename_i l₃ hc
          simp only [Option.some.injEq, Prod.mk.injEq] at h
          have : List.IsSuffix l₃ l := by rw [hc] at hsuf3; exact hsuf3
          exact h.2 ▸ this
        · rename_i l₃ hc
          have hsuf4 : List.IsSuffix l₃ l := by rw [hc] at hsuf3; exact hsuf3
          split at h
          · exact absurd h (by simp)
          · rename_i args' l₄ ha
            simp only [Option.some.injEq, Prod.mk.injEq] at h
            exact h.2 ▸ ((tpArguments_suffix g closing _ args' l₄ ha).trans
              ((tpConsume_suffix ',' l₃).trans hsuf4))
termination_by (f, 0)

theorem tpQualified_suffix (f : Nat) (l : List Char) (parts : List Ident)
    (rem : List Char) (h : tpQualified f l = some (parts, rem)) :
    List.IsSuffix rem l := by
  match f with
  | 0 => exact absurd h (by simp [tpQualified])
  | g + 1 =>
    simp only [tpQualified] at h
    have hsuf1 : List.IsSuffix (tpIdent l).2 l := tpIdent_suffix l
    split at h
    · simp only [Option.some.injEq, Prod.mk.injEq] at h
      exact h.2 ▸ hsuf1
    · have hsuf2 : List.IsSuffix (tpConsume '.' (tpSkipWs (tpIdent l).2)).2 l :=
        (tpConsume_suffix '.' _).trans ((tpSkipWs_suffix _).trans hsuf1)
      split at h
      · rename_i l₂ hc
        simp only [Option.some.injEq, Prod.mk.injEq] at h
        have : List.IsSuffix l₂ l := by rw [hc] at hsuf2; exact hsuf2
        exact h.2 ▸ this
      · rename_i l₂ hc
        have hsuf3 : List.IsSuffix l₂ l := by rw [hc] at hsuf2; exact hsuf2
        split at h
        · exact absurd h (by simp)
        · rename_i parts' l₃ hq
          simp only [Option.some.injEq, Prod.mk.injEq] at h
          exact h.2 ▸ ((tpQualified_suffix g l₂ parts' l₃ hq).trans hsuf3)
termination_by (f, 0)

end

/-! ### C5 support: appending a stopper character extends the cursor verbatim -/

theorem tpSkipWs_ext {e : Char} (hA : isWS e = false) (l tl : List Char) :
    tpSkipWs (l ++ e :: tl) = tpSkipWs l ++ e :: tl :=
  dropWhile_append_stop hA l tl

theorem tpQualified_ext {e : Char} (tl : List Char)
    (hA : isWS e = false) (hB : tpIdentChar e = false) (hD : ¬('.' = e)) :
    ∀ (f : Nat) (l : List Char) (parts : List Ident) (rem : List Char),
    tpQualified f l = some (parts, rem) →
    tpQualified f (l ++ e :: tl) = some (parts, rem ++ e :: tl) := by
  intro f
  induction f with
  | zero => intro l parts rem h; exact absurd h (by simp [tpQualified])
  | succ g ih =>
    intro l parts rem h
    simp only [tpQualified] at h ⊢
    rw [tpIdent_ext tl hA hB l]
    simp only
    split at h
    · rename_i hid
      rw [if_pos hid]
      simp only [Option.some.injEq, Prod.mk.injEq] at h
      rw [h.1, h.2]
    · rename_i hid
      rw [if_neg hid]
      rw [tpSkipWs_ext hA]
      rw [tpConsume_ext tl '.' hA hD (tpSkipWs (tpIdent l).2)]
      split at h
      · rename_i l₂ hc
        simp only [hc]
        simp only [Option.some.injEq, Prod.mk.injEq] at h
        rw [h.1, h.2]
      · rename_i l₂ hc
        simp only [hc]
        split at h
        · exact absurd h (by simp)
        · rename_i parts' l₃ hq
          simp only [ih l₂ parts' l₃ hq]
          simp only [Option.some.injEq, Prod.mk.injEq] at h
          rw [h.1, h.2]

theorem tpInner_ext {e : Char} (tl : List Char)
    (hA : isWS e = false) (hB : tpIdentChar e = false) (hD : ¬('.' = e))
    (hLTe : ¬('<' = e)) (hLBe : ¬('[' = e))
    (f : Nat) (l : List Char) (r : Option TypeExpr) (rem : List Char)
    (hLT : '<' ∉ l) (hLB : '[' ∉ l) (hCB : '{' ∉ l) (hne : tpSkipWs l ≠ [])
    (h : tpInner f l = some (r, rem)) :
    tpInner f (l ++ e :: tl) = some (r, rem ++ e :: tl) := by
  match f with
  | 0 => exact absurd h (by simp [tpInner])
  | g + 1 =>
    obtain ⟨x, xs, hsl⟩ : ∃ x xs, tpSkipWs l = x :: xs := by
      cases hsl : tpSkipWs l with
      | nil => exact absurd hsl hne
      | cons x xs => exact ⟨x, xs, rfl⟩
    have hxl : x ∈ l := (tpSkipWs_suffix l).subset (hsl ▸ List.mem_cons_self x xs)
    have hxb : ¬(x = '{') := fun hx => hCB (hx ▸ hxl)
    have hse : tpSkipWs (l ++ e :: tl) = x :: xs ++ e :: tl := by
      rw [tpSkipWs_ext hA, hsl]
    simp only [tpInner] at h ⊢
    rw [hsl] at h
    rw [if_neg (List.cons_ne_nil x xs)] at h
    rw [if_neg (show ¬((x :: xs).head? = some '{') from by simp [hxb])] at h
    rw [hse]
    rw [if_neg (show ¬(x :: xs ++ e :: tl = []) from by simp)]
    rw [if_neg (show ¬((x :: xs ++ e :: tl).head? = some '{') from by simp [hxb])]
    split at h
    · exact absurd h (by simp)
    · rename_i base l₂ hq
      have hq' : tpQualified g (x :: xs ++ e :: tl) = some (base, l₂ ++ e :: tl) :=
        tpQualified_ext tl hA hB hD g (x :: xs) base l₂ hq
      have hl₂ : List.IsSuffix l₂ l :=
        (tpQualified_suffix g (x :: xs) base l₂ hq).trans (hsl ▸ tpSkipWs_suffix l)
      simp only [hq']
      split at h
      · rename_i hb
        rw [if_pos hb]
        simp only [Option.some.injEq, Prod.mk.injEq] at h
        rw [h.1, h.2]
      · rename_i hb
        rw [if_neg hb]
        split at h
        · rename_i l₃ hc1
          exfalso
          have : '<' ∈ tpSkipWs l₂ :=
            tpConsume_fst_mem (by rw [hc1])
          exact hLT (hl₂.subset ((tpSkipWs_suffix l₂).subset this))
        · rename_i l₃ hc1
          have hl₃ : List.IsSuffix l₃ l := by
            have := (tpConsume_suffix '<' (tpSkipWs l₂)).trans
              ((tpSkipWs_suffix l₂).trans hl₂)
            rw [hc1] at this
            exact this
          have hc1' : tpConsume '<' (tpSkipWs (l₂ ++ e :: tl)) = (false, l₃ ++ e :: tl) := by
            rw [tpSkipWs_ext hA, tpConsume_ext tl '<' hA hLTe (tpSkipWs l₂), hc1]
          simp only [hc1']
          split at h
          · rename_i l₄ hc2
            exfalso
            have : '[' ∈ tpSkipWs l₃ :=
              tpConsume_fst_mem (by rw [hc2])
            exact hLB (hl₃.subset ((tpSkipWs_suffix l₃).subset this))
          · rename_i l₄ hc2
            have hc2' : tpConsume '[' (tpSkipWs (l₃ ++ e :: tl)) = (false, l₄ ++ e :: tl) := by
              rw [tpSkipWs_ext hA, tpConsume_ext tl '[' hA hLBe (tpSkipWs l₃), hc2]
            simp only [hc2']
            simp only [Option.some.injEq, Prod.mk.injEq] at h
            rw [h.1, h.2]

theorem tpWithOptional_ext {e : Char} (tl : List Char)
    (hA : isWS e = false) (hB : tpIdentChar e = false) (hD : ¬('.' = e))
    (hLTe : ¬('<' = e)) (hLBe : ¬('[' = e)) (hQ : ¬(e = '?'))
    (f : Nat) (l : List Char) (r : Option TypeExpr) (rem : List Char)
    (hLT : '<' ∉ l) (hLB : '[' ∉ l) (hCB : '{' ∉ l) (hne : tpSkipWs l ≠ [])
    (h : tpWithOptional f l = some (r, rem)) :
    tpWithOptional f (l ++ e :: tl) = some (r, rem ++ e :: tl) := by
  match f with
  | 0 => exact absurd h (by simp [tpWithOptional])
  | g + 1 =>
    simp only [tpWithOptional] at h ⊢
    split at h
    · exact absurd h (by simp)
    · rename_i l₁ hi
      simp only [tpInner_ext tl hA hB hD hLTe hLBe g l none l₁ hLT hLB hCB hne hi]
      simp only [Option.some.injEq, Prod.mk.injEq] at h
      rw [h.1, h.2]
    · rename_i ty l₁ hi
      simp only [tpInner_ext tl hA hB hD hLTe hLBe g l (some ty) l₁ hLT hLB hCB hne hi]
      rw [tpSkipWs_ext hA]
      match hsl : tpSkipWs l₁ with
      | [] =>
        rw [hsl] at h
        rw [if_neg (show ¬(([] : List Char).head? = some '?') from by simp)] at h
        rw [if_neg (show ¬((([] : List Char) ++ e :: tl).head? = some '?') from by simp [hQ])]
        simp only [Option.some.injEq, Prod.mk.injEq] at h
        rw [h.1, h.2]
      | y :: ys =>
        rw [hsl] at h
        by_cases hy : y = '?'
        · rw [if_pos (show (y :: ys).head? = some '?' from by simp [hy])] at h
          rw [if_pos (show ((y :: ys) ++ e :: tl).head? = some '?' from by simp [hy])]
          simp only [Option.some.injEq, Prod.mk.injEq, List.tail_cons] at h
          simp only [List.cons_append, List.tail_cons]
          rw [h.1, h.2]
        · rw [if_neg (show ¬((y :: ys).head? = some '?') from by simp [hy])] at h
          rw [if_neg (show ¬(((y :: ys) ++ e :: tl).head? = some '?') from by simp [hy])]
          simp only [Option.some.injEq, Prod.mk.injEq] at h
          rw [h.1, h.2]

theorem trimR_snoc {l : List Char} {c : Char} (hc : isWS c = false) :
    trimR (l ++ [c]) = l ++ [c] := by
  have h1 : (l ++ [c]).reverse = c :: l.reverse := by simp
  simp only [trimR, h1, dropWhile_cons_of_neg hc]
  simp

theorem tpConsume_head_ne {c x : Char} {rest : List Char}
    (hx : isWS x = false) (hne : ¬(x = c)) :
    tpConsume c (x :: rest) = (false, x :: rest) := by
  simp only [tpConsume, tpSkipWs, dropWhile_cons_of_neg hx]
  simp [hne]

theorem tpConsume_head_eq {c : Char} {rest : List Char} (hx : isWS c = false) :
    tpConsume c (c :: rest) = (true, rest) := by
  simp only [tpConsume, tpSkipWs, dropWhile_cons_of_neg hx]
  simp

theorem tpSkipWs_cons {x : Char} {rest : List Char} (hx : isWS x = false) :
    tpSkipWs (x :: rest) = x :: rest :=
  dropWhile_cons_of_neg hx

theorem tpQualified_List (g : Nat) (R : List Char) :
    tpQualified (g + 1) ('L' :: 'i' :: 's' :: 't' :: '[' :: R) =
      some (["List"], '[' :: R) := by
  have hid : tpIdent ('L' :: 'i' :: 's' :: 't' :: '[' :: R) = ("List", '[' :: R) := by
    simp only [tpIdent, tpSkipWs]
    rw [dropWhile_cons_of_neg (by decide)]
    simp only [List.takeWhile_cons, List.dropWhile_cons]
    rw [if_pos (by decide), if_pos (by decide), if_pos (by decide), if_pos (by decide),
        if_neg (by decide), if_pos (by decide), if_pos (by decide), if_pos (by decide),
        if_pos (by decide), if_neg (by decide)]
  have hcons : tpConsume '.' (tpSkipWs ('[' :: R)) = (false, '[' :: R) := by
    rw [tpSkipWs_cons (by decide)]
    exact tpConsume_head_ne (by decide) (by decide)
  simp only [tpQualified, hid]
  rw [if_neg (show ¬("List" = "") from by decide)]
  simp only [hcons]

/-- Parsing `List[T]` yields `List` of the parse of `T`, for any type
text `T` (nested brackets included) that the inner pass consumes
completely, the run on the bracketed region stopping at the closing
bracket. -/
theorem parseTypeExprF_list_append (g : Nat) (T : List Char) (ty : TypeExpr)
    (hws : T.dropWhile isWS = T) (hne : T ≠ []) (hhd : T.head? ≠ some ']')
    (hT : tpWithOptional (g + 1) T = some (some ty, []))
    (hT1 : tpWithOptional (g + 1) (T ++ [']']) = some (some ty, [']'])) :
    parseTypeExprF (g + 3)
      (String.mk ('L' :: 'i' :: 's' :: 't' :: '[' :: (T ++ [']']))) = some (.List ty) := by
  obtain ⟨x, xs, rfl⟩ : ∃ x xs, T = x :: xs := by
    cases T with
    | nil => exact absurd rfl hne
    | cons x xs => exact ⟨x, xs, rfl⟩
  have hx : isWS x = false := head_false_of_dropWhile_fix hws
  have hx' : ¬(x = ']') := fun hxx => hhd (by simp [hxx])
  have hT1' : tpWithOptional (g + 1) (x :: (xs ++ [']'])) = some (some ty, [']']) := by
    simpa using hT1
  have hinner : tpInner (g + 2) ('L' :: 'i' :: 's' :: 't' :: '[' :: (x :: xs ++ [']'])) =
      some (some (.List ty), []) := by
    show tpInner (g + 1 + 1) ('L' :: 'i' :: 's' :: 't' :: '[' :: (x :: xs ++ [']'])) =
      some (some (.List ty), [])
    simp only [tpInner]
    rw [tpSkipWs_cons (by decide)]
    rw [if_neg (List.cons_ne_nil _ _)]
    rw [if_neg (show ¬(('L' :: 'i' :: 's' :: 't' :: '[' :: (x :: xs ++ [']'])).head? = some '{')
      from by simp)]
    simp only [tpQualified_List g (x :: xs ++ [']'])]
    rw [if_neg (show ¬(["List"] = ([] : List Ident)) from by simp)]
    rw [show tpSkipWs ('[' :: (x :: xs ++ [']'])) = '[' :: (x :: xs ++ [']'])
      from tpSkipWs_cons (by decide)]
    simp only [tpConsume_head_ne (show isWS '[' = false from by decide)
      (show ¬('[' = '<') from by decide)]
    rw [show tpSkipWs ('[' :: (x :: xs ++ [']'])) = '[' :: (x :: xs ++ [']'])
      from tpSkipWs_cons (by decide)]
    simp only [tpConsume_head_eq (show isWS '[' = false from by decide)]
    rw [show tpSkipWs (x :: xs ++ [']']) = x :: (xs ++ [']']) from tpSkipWs_cons hx]
    rw [if_pos (show True from trivial)]
    rw [if_neg (show ¬((x :: (xs ++ [']'])).head? = some ']') from by simp [hx'])]
    simp only [hT1']
    rw [show tpSkipWs [']'] = [']'] from tpSkipWs_cons (by decide)]
    simp only [tpConsume_head_eq (show isWS ']' = false from by decide)]
    simp
  have hwopt : tpWithOptional (g + 3) ('L' :: 'i' :: 's' :: 't' :: '[' :: (x :: xs ++ [']'])) =
      some (some (.List ty), []) := by
    show tpWithOptional (g + 2 + 1) ('L' :: 'i' :: 's' :: 't' :: '[' :: (x :: xs ++ [']'])) =
      some (some (.List ty), [])
    simp only [tpWithOptional, hinner]
    simp [tpSkipWs]
  simp only [parseTypeExprF]
  rw [show rTrim ('L' :: 'i' :: 's' :: 't' :: '[' :: (x :: xs ++ [']']))
    = 'L' :: 'i' :: 's' :: 't' :: '[' :: (x :: xs ++ [']']) from by
      simp only [rTrim, trimL]
      rw [dropWhile_cons_of_neg (by decide)]
      rw [show 'L' :: 'i' :: 's' :: 't' :: '[' :: (x :: xs ++ [']'])
        = ('L' :: 'i' :: 's' :: 't' :: '[' :: x :: xs) ++ [']'] from by simp]
      exact trimR_snoc (by decide)]
  rw [if_neg (List.cons_ne_nil _ _)]
  simp only [hwopt]
  rw [if_pos (show tpSkipWs [] = [] from rfl)]

/-- Parsing `Q[A,B]` for any qualified-name text `Q` whose parse `base`
is neither empty nor the single identifier `List` yields `Generic` of
`base` and the parses of `A` and `B`, for argument texts (nested
brackets included) that the inner pass consumes completely, the runs on
the argument region stopping at the separating comma and at the closing
bracket. -/
theorem parseTypeExprF_generic_args (g : Nat) (Q A B : List Char) (base : List Ident) (tyA tyB : TypeExpr)
    (hwsQ : Q.dropWhile isWS = Q) (hneQ : Q ≠ []) (hhdQ : Q.head? ≠ some '{')
    (hQ : tpQualified (g + 2) Q = some (base, []))
    (hb0 : base ≠ []) (hbL : base ≠ ["List"])
    (hwsA : A.dropWhile isWS = A) (hneA : A ≠ []) (hhdA : A.head? ≠ some ']')
    (hwsB : B.dropWhile isWS = B) (hneB : B ≠ []) (hhdB : B.head? ≠ some ']')
    (hA0 : tpWithOptional (g + 1) A = some (some tyA, []))
    (hA1 : tpWithOptional (g + 1) (A ++ ',' :: (B ++ [']'])) =
      some (some tyA, ',' :: (B ++ [']'])))
    (hB0 : tpWithOptional g B = some (some tyB, []))
    (hB1 : tpWithOptional g (B ++ [']']) = some (some tyB, [']'])) :
    parseTypeExprF (g + 4) (String.mk (Q ++ '[' :: (A ++ ',' :: (B ++ [']'])))) =
      some (.Generic base [tyA, tyB]) := by
  obtain ⟨q, qs, rfl⟩ : ∃ q qs, Q = q :: qs := by
    cases Q with
    | nil => exact absurd rfl hneQ
    | cons q qs => exact ⟨q, qs, rfl⟩
  obtain ⟨a, as, rfl⟩ : ∃ a al, A = a :: al := by
    cases A with
    | nil => exact absurd rfl hneA
    | cons a al => exact ⟨a, al, rfl⟩
  obtain ⟨b, bs, rfl⟩ : ∃ b bl, B = b :: bl := by
    cases B with
    | nil => exact absurd rfl hneB
    | cons b bl => exact ⟨b, bl, rfl⟩
  have hq : isWS q = false := head_false_of_dropWhile_fix hwsQ
  have ha : isWS a = false := head_false_of_dropWhile_fix hwsA
  have hb : isWS b = false := head_false_of_dropWhile_fix hwsB
  have hq' : ¬(q = '{') := fun h => hhdQ (by simp [h])
  have ha' : ¬(a = ']') := fun h => hhdA (by simp [h])
  have hb' : ¬(b = ']') := fun h => hhdB (by simp [h])
  have hA1' : tpWithOptional (g + 1) (a :: (as ++ ',' :: (b :: bs ++ [']']))) =
      some (some tyA, ',' :: (b :: bs ++ [']'])) := by
    simpa using hA1
  have hB1' : tpWithOptional g (b :: (bs ++ [']'])) = some (some tyB, [']']) := by
    simpa using hB1
  have hQ' : tpQualified (g + 2)
      (q :: (qs ++ '[' :: (a :: as ++ ',' :: (b :: bs ++ [']'])))) =
      some (base, '[' :: (a :: as ++ ',' :: (b :: bs ++ [']']))) := by
    have h0 := @tpQualified_ext '[' (a :: as ++ ',' :: (b :: bs ++ [']']))
      (by decide) (by decide) (by decide) (g + 2) (q :: qs) base [] hQ
    simpa using h0
  -- the argument parse of "A,B]"
  have hargs : tpArguments (g + 2) ']' (a :: (as ++ ',' :: (b :: bs ++ [']']))) =
      some ([tyA, tyB], []) := by
    show tpArguments (g + 1 + 1) ']' (a :: (as ++ ',' :: (b :: bs ++ [']']))) =
      some ([tyA, tyB], [])
    simp only [tpArguments]
    rw [show tpSkipWs (a :: (as ++ ',' :: (b :: bs ++ [']'])))
      = a :: (as ++ ',' :: (b :: bs ++ [']'])) from tpSkipWs_cons ha]
    rw [if_neg (show ¬((a :: (as ++ ',' :: (b :: bs ++ [']']))).head? = some ']')
      from by simp [ha'])]
    simp only [hA1']
    rw [show tpSkipWs (',' :: (b :: bs ++ [']'])) = ',' :: (b :: bs ++ [']'])
      from tpSkipWs_cons (by decide)]
    simp only [tpConsume_head_ne (show isWS ',' = false from by decide)
      (show ¬(',' = ']') from by decide)]
    simp only [tpConsume_head_eq (show isWS ',' = false from by decide)]
    rw [show tpSkipWs (b :: bs ++ [']']) = b :: (bs ++ [']']) from tpSkipWs_cons hb]
    rw [if_neg (show ¬((b :: (bs ++ [']'])).head? = some ']') from by simp [hb'])]
    simp only [hB1']
    rw [show tpSkipWs [']'] = [']'] from tpSkipWs_cons (by decide)]
    simp only [tpConsume_head_eq (show isWS ']' = false from by decide)]
    simp
  -- parse_type_inner at fuel g+3
  have hinner : tpInner (g + 3)
      (q :: (qs ++ '[' :: (a :: as ++ ',' :: (b :: bs ++ [']'])))) =
      some (some (.Generic base [tyA, tyB]), []) := by
    show tpInner (g + 2 + 1)
      (q :: (qs ++ '[' :: (a :: as ++ ',' :: (b :: bs ++ [']'])))) =
      some (some (.Generic base [tyA, tyB]), [])
    simp only [tpInner]
    rw [tpSkipWs_cons hq]
    rw [if_neg (List.cons_ne_nil _ _)]
    rw [if_neg (show ¬((q :: (qs ++ '[' :: (a :: as ++ ',' :: (b :: bs ++ [']'])))).head?
      = some '{') from by simp [hq'])]
    simp only [hQ']
    rw [if_neg hb0]
    rw [show tpSkipWs ('[' :: (a :: as ++ ',' :: (b :: bs ++ [']'])))
      = '[' :: (a :: as ++ ',' :: (b :: bs ++ [']'])) from tpSkipWs_cons (by decide)]
    simp only [tpConsume_head_ne (show isWS '[' = false from by decide)
      (show ¬('[' = '<') from by decide)]
    rw [show tpSkipWs ('[' :: (a :: as ++ ',' :: (b :: bs ++ [']'])))
      = '[' :: (a :: as ++ ',' :: (b :: bs ++ [']'])) from tpSkipWs_cons (by decide)]
    simp only [tpConsume_head_eq (show isWS '[' = false from by decide)]
    rw [show tpSkipWs (a :: as ++ ',' :: (b :: bs ++ [']']))
      = a :: (as ++ ',' :: (b :: bs ++ [']'])) from tpSkipWs_cons ha]
    rw [if_neg hbL]
    have hargs' : tpArguments (g + 1 + 1) ']' (a :: (as ++ ',' :: (b :: bs ++ [']']))) =
        some ([tyA, tyB], []) := hargs
    simp only [hargs']
  -- parse_type_with_optional at fuel g+4
  have hwopt : tpWithOptional (g + 4)
      (q :: (qs ++ '[' :: (a :: as ++ ',' :: (b :: bs ++ [']'])))) =
      some (some (.Generic base [tyA, tyB]), []) := by
    show tpWithOptional (g + 3 + 1)
      (q :: (qs ++ '[' :: (a :: as ++ ',' :: (b :: bs ++ [']'])))) =
      some (some (.Generic base [tyA, tyB]), [])
    simp only [tpWithOptional, hinner]
    simp [tpSkipWs]
  -- the entry point
  simp only [parseTypeExprF]
  rw [show rTrim (q :: qs ++ '[' :: (a :: as ++ ',' :: (b :: bs ++ [']'])))
    = q :: qs ++ '[' :: (a :: as ++ ',' :: (b :: bs ++ [']'])) from by
      simp only [rTrim, trimL, List.cons_append]
      rw [dropWhile_cons_of_neg hq]
      rw [show q :: (qs ++ '[' :: (a :: (as ++ ',' :: (b :: (bs ++ [']'])))))
        = (q :: (qs ++ '[' :: (a :: (as ++ ',' :: (b :: bs))))) ++ [']'] from by simp]
      exact trimR_snoc (by decide)]
  rw [if_neg (show ¬(q :: qs ++ '[' :: (a :: as ++ ',' :: (b :: bs ++ [']'])) = ([] : List Char))
    from by simp)]
  simp only [show tpWithOptional (g + 4) (q :: qs ++ '[' :: (a :: as ++ ',' :: (b :: bs ++ [']'])))
    = some (some (.Generic base [tyA, tyB]), []) from hwopt]
  rw [if_pos (show tpSkipWs [] = [] from rfl)]

/-- Witness for C4's amended statement: return type `Int`, body
`return k`. -/
theorem hilo_c4_witness :
    parseTypeExprF 9 (String.mk "Int".data) = some (.Simple ["Int"]) ∧
      parseTaskDecl 9
          ("task T() -> ".data ++ ("Int".data ++ (" \x7b".data ++ ("return k".data ++ "\x7d".data)))) =
        some (some (.Task ⟨"T", [], some (.Simple ["Int"]),
          ⟨"return k", [.Return (some (.Identifier "k"))]⟩⟩, [])) :=
  ⟨rfl,
    hilo_c4_amended.2.1 9 "Int".data "return k".data (.Simple ["Int"])
      ⟨"return k", [.Return (some (.Identifier "k"))]⟩
      (by decide) (by decide) (by decide) (by decide) (by decide)
      (by decide) (by decide) (by decide) rfl rfl⟩


/-- C5 (amended): `List[T]` yields `List` of the parse of `T`, and
`Q[A,B]` for any base qualified name other than `List` yields
`Generic` of the base and the parses of `A` and `B`, whenever the
inner type pass consumes the sub-texts completely — nested brackets
allowed — with its runs on the bracketed regions stopping at the
separating comma / closing bracket; and the degenerate `List[]` yields
`List(Simple(["List"]))`.  (The unrestricted claim is refuted by the
counterexample `List[Int Int]`, whose inner text is only partially
consumed.) -/
theorem hilo_c5_amended :
    (∀ (g : Nat) (T : List Char) (ty : TypeExpr),
      T.dropWhile isWS = T → T ≠ [] → T.head? ≠ some ']' →
      tpWithOptional (g + 1) T = some (some ty, []) →
      tpWithOptional (g + 1) (T ++ [']']) = some (some ty, [']']) →
      parseTypeExprF (g + 3)
        (String.mk ('L' :: 'i' :: 's' :: 't' :: '[' :: (T ++ [']']))) = some (.List ty)) ∧
    (∀ (g : Nat) (Q A B : List Char) (base : List Ident) (tyA tyB : TypeExpr),
      Q.dropWhile isWS = Q → Q ≠ [] → Q.head? ≠ some '{' →
      tpQualified (g + 2) Q = some (base, []) →
      base ≠ [] → base ≠ ["List"] →
      A.dropWhile isWS = A → A ≠ [] → A.head? ≠ some ']' →
      B.dropWhile isWS = B → B ≠ [] → B.head? ≠ some ']' →
      tpWithOptional (g + 1) A = some (some tyA, []) →
      tpWithOptional (g + 1) (A ++ ',' :: (B ++ [']'])) =
        some (some tyA, ',' :: (B ++ [']'])) →
      tpWithOptional g B = some (some tyB, []) →
      tpWithOptional g (B ++ [']']) = some (some tyB, [']']) →
      parseTypeExprF (g + 4) (String.mk (Q ++ '[' :: (A ++ ',' :: (B ++ [']'])))) =
        some (.Generic base [tyA, tyB])) ∧
    parseTypeExprF 5 "List[]" = some (.List (.Simple ["List"])) :=
  ⟨parseTypeExprF_list_append, parseTypeExprF_generic_args, rfl⟩

/-- Witness for C5's amended statement, with nested-bracket sub-texts:
`List[Map[String,Int]]` and `Map[String,List[Int]]`. -/
theorem hilo_c5_witness :
    parseTypeExprF 11
        (String.mk ('L' :: 'i' :: 's' :: 't' :: '[' :: ("Map[String,Int]".data ++ [']']))) =
      some (.List (.Generic ["Map"] [.Simple ["String"], .Simple ["Int"]])) ∧
    parseTypeExprF 12
        (String.mk ("Map".data ++ '[' :: ("String".data ++ ',' :: ("List[Int]".data ++ [']'])))) =
      some (.Generic ["Map"] [.Simple ["String"], .List (.Simple ["Int"])]) :=
  ⟨hilo_c5_amended.1 8 "Map[String,Int]".data
      (.Generic ["Map"] [.Simple ["String"], .Simple ["Int"]])
      (by decide) (by decide) (by decide) rfl rfl,
    hilo_c5_amended.2.1 8 "Map".data "String".data "List[Int]".data ["Map"]
      (.Simple ["String"]) (.List (.Simple ["Int"]))
      (by decide) (by decide) (by decide) rfl (by decide) (by decide)
      (by decide) (by decide) (by decide) (by decide) (by decide) (by decide)
      rfl rfl rfl rfl⟩

end Hilo
